import Mathlib

/-!
# gropple: download job manager

A shallow embedding of `main.go` (the job record, the metadata parser
`updateMetadata`, the output drain `updateDownload`, the supervisor `queue`
and the two registry handlers `FetchHandler` and `FetchInfoHandler`),
followed by the properties proved about it.

Go strings are modelled as Lean strings (sequences of characters). The Go
library functions the program calls (`regexp`, `strconv`, `strings.Split`)
are modelled from their documented behaviour, on the inputs the program
gives them.
-/

namespace Gropple

/-! ## Library model: `regexp` (leftmost-first matching) -/

/-- One element of a regular expression. The three expressions of `main.go`
are sequences of single characters, `+` repetitions of a character class
(greedy `x+` or lazy `x+?`), one capture group and the anchor `$`. -/
inductive Node where
  | one (p : Char → Bool)
  | plus (p : Char → Bool) (greedy : Bool)
  | capOpen
  | capClose
  | endText

/-- Matching `x+` followed by the continuation `k`, the way a backtracking
search does: a greedy repetition first tries to take one more character and
falls back to the continuation, a lazy one first tries the continuation. -/
def plusLoop {R : Type} (p : Char → Bool) (greedy : Bool) (k : List Char → Option R) :
    List Char → Option R
  | [] => none
  | c :: t =>
    if p c then
      if greedy then (plusLoop p greedy k t).orElse (fun _ => k t)
      else (k t).orElse (fun _ => plusLoop p greedy k t)
    else none

/-- Match the expression at the start of the input. `cs` is the input as it
stood when the capture group opened and `cap` the text captured so far; the
result is the captured text and the input left after the match. -/
def run : List Node → List Char → List Char → List Char → Option (List Char × List Char)
  | [], _, cap, s => some (cap, s)
  | .one p :: ns, cs, cap, s =>
    match s with
    | [] => none
    | c :: t => if p c then run ns cs cap t else none
  | .plus p g :: ns, cs, cap, s => plusLoop p g (run ns cs cap) s
  | .capOpen :: ns, _, cap, s => run ns s cap s
  | .capClose :: ns, cs, _, s => run ns cs (cs.take (cs.length - s.length)) s
  | .endText :: ns, cs, cap, s => if s.isEmpty then run ns cs cap s else none

/-- Leftmost match: try every start position from left to right. The result
is the whole match and the captured group. -/
def find (re : List Node) : List Char → Option (List Char × List Char)
  | [] => (run re [] [] []).map fun r => ([], r.1)
  | c :: t =>
    match run re [] [] (c :: t) with
    | some r => some ((c :: t).take ((c :: t).length - r.2.length), r.1)
    | none => find re t

/-- Model of `(*Regexp).FindStringSubmatch` for an expression with one group: the empty
slice when nothing matches, otherwise the whole match followed by the
group. -/
def FindStringSubmatch (re : List Node) (s : String) : List String :=
  match find re s.data with
  | none => []
  | some (m, c) => [String.mk m, String.mk c]

/-- The literal characters of `w`, one node each. -/
def lits (w : String) : List Node := w.data.map fun c => Node.one (fun x => x == c)

/-- The class `.`: any character but a newline. -/
def dot : Char → Bool := fun x => x != '\n'

/-- The class `\d`: an ASCII digit. -/
def digit : Char → Bool := fun x => '0' ≤ x && x ≤ '9'

/-- The class `[\d\.]`. -/
def digitOrDot : Char → Bool := fun x => digit x || x == '.'

/-- The class of the single character space. -/
def space : Char → Bool := fun x => x == ' '

/-- The expression `download.+ETA +(\d\d:\d\d)`. -/
def etaRE : List Node :=
  lits "download" ++ [.plus dot true] ++ lits "ETA" ++
    [.plus space true, .capOpen, .one digit, .one digit, .one (fun x => x == ':'),
      .one digit, .one digit, .capClose]

/-- The expression `download.+?([\d\.]+)%`. -/
def percentRE : List Node :=
  lits "download" ++ [.plus dot false, .capOpen, .plus digitOrDot true, .capClose] ++ lits "%"

/-- The expression `download.+?Destination: (.+)$`. -/
def filename : List Node :=
  lits "download" ++ [.plus dot false] ++ lits "Destination: " ++
    [.capOpen, .plus dot true, .capClose, .endText]

/-! ## Library model: `strconv.ParseFloat(s, 32)` -/

deriving instance DecidableEq for Except

/-- A 32-bit floating-point value, given by its IEEE 754 bit pattern. -/
structure Float32 where
  bits : Nat
  deriving DecidableEq, Repr

/-- The two ways `strconv.ParseFloat` fails. -/
inductive NumError where
  | errSyntax
  | errRange
  deriving DecidableEq, Repr

/-- Floor of the binary logarithm, `0` at `0`; `fuel` bounds the number of halvings. -/
def log2Floor : Nat → Nat → Nat
  | 0, _ => 0
  | fuel + 1, n => if 2 ≤ n then log2Floor fuel (n / 2) + 1 else 0

/-- The bit pattern of the float32 nearest to `n / 10 ^ k`, ties to even
(`roundBits_nearest`). With `t` the exponent field less one (or `0` in the
lowest binades), the value is `m * 2 ^ (t - 149)` for the rounded significand
`m`; a carry out of the significand lands in the exponent field by itself.
A pattern from `255 * 2 ^ 23` on is beyond the largest finite float32. -/
def roundBits (n k : Nat) : Nat :=
  let num := n * 2 ^ 149
  let t := log2Floor (num / 10 ^ k) (num / 10 ^ k) - 23
  let den := 10 ^ k * 2 ^ t
  let q := num / den
  let r := num % den
  let m := if den < 2 * r ∨ (2 * r = den ∧ q % 2 = 1) then q + 1 else q
  t * 2 ^ 23 + m

/-- The digits of a numeral as a natural number, ignoring the dot. -/
def digitsValue (s : List Char) : Nat :=
  (s.filter digit).foldl (fun acc c => 10 * acc + (c.toNat - 48)) 0

/-- Number of digits after the dot (`0` when there is no dot). -/
def fractionDigits (s : List Char) : Nat :=
  ((s.dropWhile fun c => c != '.').filter digit).length

/-- Model of `strconv.ParseFloat(s, 32)` on the strings `updateMetadata` passes to
it, which consist of digits and dots only (see `capture_digitOrDot`): a
numeral has at least one digit and at most one dot, anything else is a
syntax error; a value that rounds beyond the largest finite float32 is a
range error. -/
def ParseFloat32 (s : String) : Except NumError Float32 :=
  if s.data.all digitOrDot ∧ (s.data.filter digit).length ≠ 0 ∧
      (s.data.filter fun c => c == '.').length ≤ 1 then
    let b := roundBits (digitsValue s.data) (fractionDigits s.data)
    if b < 255 * 2 ^ 23 then .ok ⟨b⟩ else .error .errRange
  else .error .errSyntax

/-! ## The job record and the metadata parser -/

/-- The record `download` of `main.go`. -/
structure download where
  Id : Int
  Url : String
  Pid : Int
  ExitCode : Int
  State : String
  Finished : Bool
  Files : List String
  Eta : String
  Percent : Float32
  Log : List String
  deriving DecidableEq, Repr

/-- The function `updateMetadata`. The three expressions are tried in turn on the line;
`panic(err)` is the error result. -/
def updateMetadata (dl : download) (s : String) : Except NumError download :=
  let matches1 := FindStringSubmatch etaRE s
  let dl := if matches1.length = 2 then
      { dl with Eta := matches1.getD 1 "", State := "downloading" } else dl
  let matches2 := FindStringSubmatch percentRE s
  let r : Except NumError download :=
    if matches2.length = 2 then
      match ParseFloat32 (matches2.getD 1 "") with
      | .ok p => .ok { dl with Percent := p }
      | .error err => .error err
    else .ok dl
  match r with
  | .error err => .error err
  | .ok dl =>
    let matches3 := FindStringSubmatch filename s
    if matches3.length = 2 then
      .ok { dl with Files := dl.Files ++ [matches3.getD 1 ""] }
    else .ok dl

/-! ## The output drain -/

/-- Splitting at every newline: one more piece than there are newlines. -/
def splitNL : List Char → List (List Char)
  | [] => [[]]
  | c :: cs =>
    if c = '\n' then [] :: splitNL cs
    else
      match splitNL cs with
      | [] => [[c]]
      | l :: ls => (c :: l) :: ls

/-- Model of `strings.Split(s, "\n")`. -/
def Split (s : String) : List String := (splitNL s.data).map String.mk

/-- The inner loop of `updateDownload` over the lines of one read: an empty line is
skipped, any other line is appended to the log and given to
`updateMetadata`. -/
def drainLines (dl : download) : List String → Except NumError download
  | [] => .ok dl
  | l :: ls =>
    if l = "" then drainLines dl ls
    else
      match updateMetadata { dl with Log := dl.Log ++ [l] } l with
      | .error err => .error err
      | .ok dl1 => drainLines dl1 ls

/-- The function `updateDownload`. The reader is the list of the data its successive
`Read` calls return (each at most the 1024 bytes of the buffer, and whole
characters: a read that ends inside a multi-byte character has no
counterpart here); the call after the last element is the one that returns
an error with no data, which ends the loop. -/
def updateDownload : List String → download → Except NumError download
  | [], dl => .ok dl
  | buf :: r, dl =>
    if buf.length > 0 then
      match drainLines dl (Split buf) with
      | .error err => .error err
      | .ok dl1 => updateDownload r dl1
    else updateDownload r dl

/-! ## The supervisor -/

/-- The globals `downloads` and `downloadId`. -/
structure Registry where
  downloads : List download
  downloadId : Int
  deriving DecidableEq, Repr

/-- The registry at program start. -/
def Registry.init : Registry := { downloads := [], downloadId := 0 }

/-- Arithmetic of the Go type `int` (64 bits): results wrap around. -/
def wrapInt (x : Int) : Int := (x + 2 ^ 63) % 2 ^ 64 - 2 ^ 63

/-- The function `FetchHandler`, as far as the registry goes. `query` is the value of
`query["url"]`, `none` when the parameter is not present; on an empty value
list `url[0]` panics after the counter has been incremented, and the server
goes on. The registry holds a pointer to the new record, so the line
appended to its log after the registration is seen through the registry.
Starting `queue` and rendering the reply are left out. -/
def FetchHandler (g : Registry) (query : Option (List String)) : Registry :=
  match query with
  | none => g
  | some url =>
    let downloadId := wrapInt (g.downloadId + 1)
    match url with
    | [] => { g with downloadId := downloadId }
    | url0 :: _ =>
      let newDownload : download :=
        { Id := downloadId, Url := url0, Pid := 0, ExitCode := 0, State := "starting",
          Finished := false, Files := [], Eta := "?", Percent := ⟨0⟩, Log := [] }
      let newDownload := { newDownload with Log := newDownload.Log ++ ["start of log..."] }
      { downloads := g.downloads ++ [newDownload], downloadId := downloadId }

/-- A run of `FetchHandler` over a sequence of requests, one after the other. -/
def FetchHandler.all (g : Registry) (queries : List (Option (List String))) : Registry :=
  queries.foldl FetchHandler g

/-- Model of `strconv.Atoi`: an optional sign and at least one decimal digit,
within the range of `int`. -/
def Atoi (s : String) : Except NumError Int :=
  let r : Bool × List Char :=
    match s.data with
    | '-' :: t => (true, t)
    | '+' :: t => (false, t)
    | t => (false, t)
  if r.2 ≠ [] ∧ r.2.all digit then
    let v : Int := if r.1 then - (digitsValue r.2 : Int) else (digitsValue r.2 : Int)
    if - 2 ^ 63 ≤ v ∧ v < 2 ^ 63 then .ok v else .error .errRange
  else .error .errSyntax

/-- What `FetchInfoHandler` sends: a 404 (`http.NotFound`), the JSON encoding of a
job, or nothing at all. -/
inductive Response where
  | notFound
  | wrote (dl : download)
  | nothing
  deriving DecidableEq, Repr

/-- The loop of `FetchInfoHandler` over the registry. -/
def FetchInfoHandler.loop (id : Int) : List download → Response
  | [] => .nothing
  | dl :: rest => if dl.Id = id then .wrote dl else FetchInfoHandler.loop id rest

/-- The function `FetchInfoHandler`; `idString` is the route variable `id`. -/
def FetchInfoHandler (downloads : List download) (idString : String) : Response :=
  if idString ≠ "" then
    match Atoi idString with
    | .error _ => .notFound
    | .ok id => FetchInfoHandler.loop id downloads
  else .notFound

/-! ## Definitions used in the statements -/

/-- The job `FetchHandler` registers first after program start, for the url `u`: a
concrete job to evaluate the functions on. -/
def sampleJob : download :=
  { Id := 1, Url := "u", Pid := 0, ExitCode := 0, State := "starting", Finished := false,
    Files := [], Eta := "?", Percent := ⟨0⟩, Log := ["start of log..."] }

/-- Applying `updateMetadata` to a sequence of lines, in order; the first panic ends
the run. -/
def metadataOfLines (dl : download) : List String → Except NumError download
  | [] => .ok dl
  | l :: ls =>
    match updateMetadata dl l with
    | .error err => .error err
    | .ok dl1 => metadataOfLines dl1 ls

/-- The non-empty lines of a text. -/
def nonEmptyLines (s : String) : List String := (Split s).filter fun l => l ≠ ""

/-- The whole content of a stream given by its reads. -/
def content (r : List String) : String := r.foldr (fun buf acc => buf ++ acc) ""

/-! ## Lemmas on the matcher -/

theorem plusLoop_cons_false {R : Type} (p : Char → Bool) (g : Bool) (k : List Char → Option R)
    (c : Char) (t : List Char) (h : p c = false) : plusLoop p g k (c :: t) = none := by
  simp [plusLoop, h]

theorem plusLoop_greedy_append {R : Type} (p : Char → Bool) (k : List Char → Option R)
    (a b : List Char) (r : R) (ha : a ≠ []) (hp : ∀ c ∈ a, p c = true)
    (hb : plusLoop p true k b = none) (hk : k b = some r) :
    plusLoop p true k (a ++ b) = some r := by
  induction a with
  | nil => exact absurd rfl ha
  | cons c a ih =>
    have hc : p c = true := hp c (List.mem_cons_self _ _)
    cases a with
    | nil => simp [plusLoop, hc, hb, hk]
    | cons c1 a1 =>
      have h1 := ih (by simp) (fun x hx => hp x (List.mem_cons_of_mem _ hx))
      simp only [List.cons_append] at h1 ⊢
      simp [plusLoop, hc] at h1 ⊢
      simp [plusLoop, h1]

theorem plusLoop_lazy_skip {R : Type} (p : Char → Bool) (k : List Char → Option R)
    (c : Char) (t : List Char) (hc : p c = true) (hk : k t = none) :
    plusLoop p false k (c :: t) = plusLoop p false k t := by
  simp [plusLoop, hc, hk]

theorem plusLoop_lazy_hit {R : Type} (p : Char → Bool) (k : List Char → Option R)
    (c : Char) (t : List Char) (r : R) (hc : p c = true) (hk : k t = some r) :
    plusLoop p false k (c :: t) = some r := by
  simp [plusLoop, hc, hk]

theorem orElse_eq_some_cases {R : Type} (a b : Option R) (r : R)
    (h : (a.orElse fun _ => b) = some r) : a = some r ∨ b = some r := by
  cases a with
  | none => exact Or.inr (by simpa using h)
  | some x => exact Or.inl (by simpa using h)

theorem plusLoop_some {R : Type} (p : Char → Bool) (g : Bool) (k : List Char → Option R)
    (s : List Char) (r : R) (h : plusLoop p g k s = some r) :
    ∃ a t, s = a ++ t ∧ a ≠ [] ∧ (∀ c ∈ a, p c = true) ∧ k t = some r := by
  induction s with
  | nil => simp [plusLoop] at h
  | cons c t ih =>
    by_cases hc : p c = true
    · have key : plusLoop p g k t = some r ∨ k t = some r := by
        cases g
        · simp only [plusLoop, hc, if_true] at h
          exact (orElse_eq_some_cases _ _ r (by simpa using h)).symm
        · simp only [plusLoop, hc, if_true] at h
          exact orElse_eq_some_cases _ _ r (by simpa using h)
      rcases key with h1 | h1
      · obtain ⟨a, u, rfl, -, hp, hk⟩ := ih h1
        refine ⟨c :: a, u, rfl, by simp, ?_, hk⟩
        intro x hx
        rcases List.mem_cons.mp hx with rfl | hx
        · exact hc
        · exact hp x hx
      · exact ⟨[c], t, rfl, by simp, by simpa using hc, h1⟩
    · simp [plusLoop, hc] at h

theorem run_lits (w : List Char) (ns : List Node) (cs cap s : List Char) :
    run (w.map (fun c => Node.one fun x => x == c) ++ ns) cs cap (w ++ s) = run ns cs cap s := by
  induction w with
  | nil => rfl
  | cons c w ih => simp [run, ih]

theorem run_lits_some (w : List Char) (ns : List Node) (cs cap s : List Char)
    (r : List Char × List Char)
    (h : run (w.map (fun c => Node.one fun x => x == c) ++ ns) cs cap s = some r) :
    ∃ t, s = w ++ t ∧ run ns cs cap t = some r := by
  induction w generalizing s with
  | nil => exact ⟨s, rfl, h⟩
  | cons c w ih =>
    cases s with
    | nil => simp [run] at h
    | cons x s =>
      simp only [List.map_cons, List.cons_append, run] at h
      by_cases hx : (x == c) = true
      · simp [hx] at h
        obtain ⟨t, rfl, ht⟩ := ih s h
        have : x = c := by simpa using hx
        exact ⟨t, by simp [this], ht⟩
      · simp [hx] at h

theorem find_cons_none (re : List Node) (c : Char) (t : List Char)
    (h : run re [] [] (c :: t) = none) : find re (c :: t) = find re t := by
  simp [find, h]

theorem find_of_run (re : List Node) (s : List Char) (r : List Char × List Char)
    (h : run re [] [] s = some r) : ∃ m, find re s = some (m, r.1) := by
  cases s <;> simp [find, h]

theorem digit_ne_of_not_digit (c x : Char) (hc : digit c = true) (hx : digit x = false) :
    (c == x) = false := by
  cases h : c == x
  · rfl
  · have : c = x := by simpa using h
    subst this
    simp [hc] at hx

theorem run_etaRE_tail (cs cap : List Char) (d1 d2 d3 d4 : Char)
    (h1 : digit d1 = true) (h2 : digit d2 = true) (h3 : digit d3 = true) (h4 : digit d4 = true) :
    run (lits "ETA" ++ [.plus space true, .capOpen, .one digit, .one digit,
        .one (fun x => x == ':'), .one digit, .one digit, .capClose]) cs cap
      ("ETA ".data ++ [d1, d2, ':', d3, d4]) = some ([d1, d2, ':', d3, d4], []) := by
  simp [lits, run, plusLoop, space, h1, h2, h3, h4]

theorem plusLoop_etaRE_tail (cs cap : List Char) (d1 d2 d3 d4 : Char)
    (h1 : digit d1 = true) (h2 : digit d2 = true) (h3 : digit d3 = true) (h4 : digit d4 = true) :
    plusLoop dot true (run (lits "ETA" ++ [.plus space true, .capOpen, .one digit, .one digit,
        .one (fun x => x == ':'), .one digit, .one digit, .capClose]) cs cap)
      ("ETA ".data ++ [d1, d2, ':', d3, d4]) = none := by
  have e1 := digit_ne_of_not_digit d1 'E' h1 (by decide)
  have e2 := digit_ne_of_not_digit d2 'E' h2 (by decide)
  have e3 := digit_ne_of_not_digit d3 'E' h3 (by decide)
  have e4 := digit_ne_of_not_digit d4 'E' h4 (by decide)
  simp at e1 e2 e3 e4
  simp [lits, run, plusLoop, e1, e2, e3, e4]

theorem run_etaRE (a : List Char) (d1 d2 d3 d4 : Char) (ha : a ≠ [])
    (hdot : ∀ c ∈ a, dot c = true)
    (h1 : digit d1 = true) (h2 : digit d2 = true) (h3 : digit d3 = true) (h4 : digit d4 = true) :
    run etaRE [] [] ("download".data ++ (a ++ ("ETA ".data ++ [d1, d2, ':', d3, d4]))) =
      some ([d1, d2, ':', d3, d4], []) := by
  have e : etaRE = ("download".data.map fun c => Node.one fun x => x == c) ++
      (.plus dot true :: (lits "ETA" ++ [.plus space true, .capOpen, .one digit, .one digit,
        .one (fun x => x == ':'), .one digit, .one digit, .capClose])) := by
    simp [etaRE, lits]
  rw [e, run_lits, run]
  exact plusLoop_greedy_append _ _ a _ _ ha hdot (plusLoop_etaRE_tail _ _ d1 d2 d3 d4 h1 h2 h3 h4)
    (run_etaRE_tail _ _ d1 d2 d3 d4 h1 h2 h3 h4)

theorem find_etaRE (a : List Char) (d1 d2 d3 d4 : Char) (ha : a ≠ [])
    (hdot : ∀ c ∈ a, dot c = true)
    (h1 : digit d1 = true) (h2 : digit d2 = true) (h3 : digit d3 = true) (h4 : digit d4 = true) :
    ∃ m, find etaRE ('[' :: ("download".data ++ (a ++ ("ETA ".data ++ [d1, d2, ':', d3, d4])))) =
      some (m, [d1, d2, ':', d3, d4]) := by
  have h0 : run etaRE [] [] ('[' :: ("download".data ++ (a ++ ("ETA ".data ++ [d1, d2, ':', d3, d4]))))
      = none := by
    simp [etaRE, lits, run]
  rw [find_cons_none _ _ _ h0]
  exact find_of_run _ _ _ (run_etaRE a d1 d2 d3 d4 ha hdot h1 h2 h3 h4)

theorem take_length_sub (a b : List Char) : (a ++ b).take ((a ++ b).length - b.length) = a := by
  simp

theorem run_percentRE_group (P tail cap : List Char) (hP : P ≠ [])
    (hd : ∀ c ∈ P, digitOrDot c = true) :
    run ([.capOpen, .plus digitOrDot true, .capClose] ++ lits "%") [] cap (P ++ '%' :: tail) =
      some (P, tail) := by
  have hk : run (.capClose :: lits "%") (P ++ '%' :: tail) cap ('%' :: tail) = some (P, tail) := by
    have := take_length_sub P ('%' :: tail)
    simp at this
    simp [run, lits, this]
  simp only [List.cons_append, List.nil_append, run]
  exact plusLoop_greedy_append _ _ P _ _ hP hd (plusLoop_cons_false _ _ _ _ _ (by decide)) hk

theorem run_percentRE_group_none (c : Char) (t cap : List Char) (hc : digitOrDot c = false) :
    run ([.capOpen, .plus digitOrDot true, .capClose] ++ lits "%") [] cap (c :: t) = none := by
  simp [run, plusLoop, hc]

theorem plusLoop_percentRE (sp P tail : List Char) (c0 : Char) (h0 : dot c0 = true)
    (hsp : ∀ c ∈ sp, c = ' ') (hP : P ≠ []) (hd : ∀ c ∈ P, digitOrDot c = true) :
    plusLoop dot false (run ([.capOpen, .plus digitOrDot true, .capClose] ++ lits "%") [] [])
      (c0 :: (sp ++ (P ++ '%' :: tail))) = some (P, tail) := by
  induction sp generalizing c0 with
  | nil => exact plusLoop_lazy_hit _ _ _ _ _ h0 (run_percentRE_group P tail [] hP hd)
  | cons x sp ih =>
    have hx : x = ' ' := hsp x (List.mem_cons_self _ _)
    subst hx
    exact (plusLoop_lazy_skip _ _ c0 (' ' :: (sp ++ (P ++ '%' :: tail))) h0
      (run_percentRE_group_none ' ' _ [] (by decide))).trans
      (ih ' ' (by decide) (fun c hc => hsp c (List.mem_cons_of_mem _ hc)))

theorem find_percentRE (sp P tail : List Char)
    (hsp : ∀ c ∈ sp, c = ' ') (hP : P ≠ []) (hd : ∀ c ∈ P, digitOrDot c = true) :
    ∃ m, find percentRE ('[' :: ("download".data ++ ']' :: (sp ++ (P ++ '%' :: tail)))) =
      some (m, P) := by
  have e : percentRE = ("download".data.map fun c => Node.one fun x => x == c) ++
      (.plus dot false :: ([.capOpen, .plus digitOrDot true, .capClose] ++ lits "%")) := by
    simp [percentRE, lits]
  have h0 : run percentRE [] [] ('[' :: ("download".data ++ ']' :: (sp ++ (P ++ '%' :: tail))))
      = none := by
    simp [percentRE, lits, run]
  rw [find_cons_none _ _ _ h0]
  have hr : run percentRE [] [] ("download".data ++ ']' :: (sp ++ (P ++ '%' :: tail))) =
      some (P, tail) := by
    rw [e, run_lits, run]
    exact plusLoop_percentRE sp P tail ']' (by decide) hsp hP hd
  exact find_of_run _ _ _ hr

theorem FindStringSubmatch_some (re : List Node) (s : String) (m c : List Char)
    (h : find re s.data = some (m, c)) : FindStringSubmatch re s = [String.mk m, String.mk c] := by
  simp [FindStringSubmatch, h]

theorem FindStringSubmatch_none (re : List Node) (s : String)
    (h : find re s.data = none) : FindStringSubmatch re s = [] := by
  simp [FindStringSubmatch, h]

theorem FindStringSubmatch_cases (re : List Node) (s : String) :
    FindStringSubmatch re s = [] ∨ ∃ m c, FindStringSubmatch re s = [m, c] := by
  unfold FindStringSubmatch
  rcases find re s.data with _ | ⟨m, c⟩
  · exact Or.inl rfl
  · exact Or.inr ⟨_, _, rfl⟩

theorem digitOrDot_dot (c : Char) (h : digitOrDot c = true) : dot c = true := by
  cases hc : dot c
  · have : c = '\n' := by simpa [dot] using hc
    subst this
    simp [digitOrDot, digit] at h
  · rfl

theorem updateMetadata_of_matches (dl : download) (s m1 c1 m2 c2 : String) (v : Float32)
    (e1 : FindStringSubmatch etaRE s = [m1, c1]) (e2 : FindStringSubmatch percentRE s = [m2, c2])
    (hP : ParseFloat32 c2 = .ok v) :
    ∃ dl1, updateMetadata dl s = .ok dl1 ∧
      dl1.Percent = v ∧ dl1.Eta = c1 ∧ dl1.State = "downloading" := by
  rcases FindStringSubmatch_cases filename s with e3 | ⟨m3, c3, e3⟩ <;>
    simp [updateMetadata, e1, e2, e3, hP]

theorem progress_line_matches (sp P size rate : List Char) (d1 d2 d3 d4 : Char)
    (hsp : ∀ c ∈ sp, c = ' ') (hne : P ≠ []) (hdd : ∀ c ∈ P, digitOrDot c = true)
    (hsize : ∀ c ∈ size, c ≠ '\n') (hrate : ∀ c ∈ rate, c ≠ '\n')
    (h1 : digit d1 = true) (h2 : digit d2 = true) (h3 : digit d3 = true) (h4 : digit d4 = true) :
    ∃ m1 m2 : String,
      FindStringSubmatch etaRE (String.mk ("[download]".data ++ sp ++ P ++ "% of ".data ++ size ++
        " at ".data ++ rate ++ " ETA ".data ++ [d1, d2, ':', d3, d4])) =
          [m1, String.mk [d1, d2, ':', d3, d4]] ∧
      FindStringSubmatch percentRE (String.mk ("[download]".data ++ sp ++ P ++ "% of ".data ++
        size ++ " at ".data ++ rate ++ " ETA ".data ++ [d1, d2, ':', d3, d4])) =
          [m2, String.mk P] := by
  have hline : "[download]".data ++ sp ++ P ++ "% of ".data ++ size ++
        " at ".data ++ rate ++ " ETA ".data ++ [d1, d2, ':', d3, d4] =
      '[' :: ("download".data ++ ((']' :: (sp ++ P ++ "% of ".data ++ size ++
        " at ".data ++ rate ++ [' '])) ++ ("ETA ".data ++ [d1, d2, ':', d3, d4]))) := by
    simp
  have hline2 : "[download]".data ++ sp ++ P ++ "% of ".data ++ size ++
        " at ".data ++ rate ++ " ETA ".data ++ [d1, d2, ':', d3, d4] =
      '[' :: ("download".data ++ ']' :: (sp ++ (P ++ '%' :: (" of ".data ++ size ++
        " at ".data ++ rate ++ " ETA ".data ++ [d1, d2, ':', d3, d4])))) := by
    simp
  have hdot : ∀ c ∈ ']' :: (sp ++ P ++ "% of ".data ++ size ++ " at ".data ++ rate ++ [' ']),
      dot c = true := by
    intro c hc
    simp only [List.mem_cons, List.mem_append, List.mem_singleton, List.not_mem_nil,
      or_false] at hc
    rcases hc with rfl | ((((((hc | hc) | hc) | hc) | hc) | hc) | rfl)
    · decide
    · rw [hsp c hc]; decide
    · exact digitOrDot_dot c (hdd c hc)
    · rcases hc with rfl | rfl | rfl | rfl | rfl <;> decide
    · simpa [dot] using hsize c hc
    · rcases hc with rfl | rfl | rfl | rfl <;> decide
    · simpa [dot] using hrate c hc
    · decide
  obtain ⟨m1, hm1⟩ := find_etaRE _ d1 d2 d3 d4 (by simp) hdot h1 h2 h3 h4
  obtain ⟨m2, hm2⟩ := find_percentRE sp P (" of ".data ++ size ++
        " at ".data ++ rate ++ " ETA ".data ++ [d1, d2, ':', d3, d4]) hsp hne hdd
  rw [← hline] at hm1
  rw [← hline2] at hm2
  exact ⟨_, _, FindStringSubmatch_some etaRE (String.mk _) _ _ hm1,
    FindStringSubmatch_some percentRE (String.mk _) _ _ hm2⟩

theorem updateMetadata_error_of_parse (dl : download) (s m2 c2 : String) (err : NumError)
    (e2 : FindStringSubmatch percentRE s = [m2, c2]) (hP : ParseFloat32 c2 = .error err) :
    updateMetadata dl s = .error err := by
  rcases FindStringSubmatch_cases etaRE s with e1 | ⟨m1, c1, e1⟩ <;>
    simp [updateMetadata, e1, e2, hP]

theorem run_filename_group (F cap : List Char) (hF : F ≠ []) (hd : ∀ c ∈ F, dot c = true) :
    run [.capOpen, .plus dot true, .capClose, .endText] [] cap F = some (F, []) := by
  have hk : run [.capClose, .endText] F cap [] = some (F, []) := by
    simp [run]
  have := plusLoop_greedy_append dot (run [.capClose, .endText] F cap) F [] (F, []) hF hd rfl hk
  rw [List.append_nil] at this
  rw [run, run]
  exact this

theorem run_filename (F : List Char) (hF : F ≠ []) (hd : ∀ c ∈ F, dot c = true) :
    run filename [] [] ("download".data ++ (']' :: ' ' :: ("Destination: ".data ++ F))) =
      some (F, []) := by
  have e : filename = ("download".data.map fun c => Node.one fun x => x == c) ++
      (.plus dot false :: (("Destination: ".data.map fun c => Node.one fun x => x == c) ++
        [.capOpen, .plus dot true, .capClose, .endText])) := by
    simp [filename, lits]
  rw [e, run_lits, run]
  have hskip : run (("Destination: ".data.map fun c => Node.one fun x => x == c) ++
        [.capOpen, .plus dot true, .capClose, .endText]) [] []
      (' ' :: ("Destination: ".data ++ F)) = none := by
    simp [run]
  rw [plusLoop_lazy_skip _ _ ']' _ (by decide) hskip]
  refine plusLoop_lazy_hit _ _ ' ' _ _ (by decide) ?_
  rw [run_lits]
  exact run_filename_group F [] hF hd

theorem find_filename (F : List Char) (hF : F ≠ []) (hd : ∀ c ∈ F, dot c = true) :
    ∃ m, find filename ('[' :: ("download".data ++ (']' :: ' ' :: ("Destination: ".data ++ F)))) =
      some (m, F) := by
  have h0 : run filename [] []
      ('[' :: ("download".data ++ (']' :: ' ' :: ("Destination: ".data ++ F)))) = none := by
    simp [filename, lits, run]
  rw [find_cons_none _ _ _ h0]
  exact find_of_run _ _ _ (run_filename F hF hd)

theorem run_mem_one (p : Char → Bool) (ns : List Node) (cs cap s : List Char)
    (r : List Char × List Char) (hmem : Node.one p ∈ ns) (h : run ns cs cap s = some r) :
    ∃ c ∈ s, p c = true := by
  induction ns generalizing cs cap s with
  | nil => simp at hmem
  | cons n ns ih =>
    cases n with
    | one q =>
      cases s with
      | nil => simp [run] at h
      | cons x t =>
        by_cases hx : q x = true
        · simp only [run, hx, if_true] at h
          rcases List.mem_cons.mp hmem with e | hm
          · have : p = q := by injection e
            subst this
            exact ⟨x, List.mem_cons_self _ _, hx⟩
          · obtain ⟨c, hc, hpc⟩ := ih cs cap t hm h
            exact ⟨c, List.mem_cons_of_mem _ hc, hpc⟩
        · simp [run, hx] at h
    | plus q g =>
      have hm : Node.one p ∈ ns := by
        rcases List.mem_cons.mp hmem with e | hm
        · cases e
        · exact hm
      obtain ⟨a, t, rfl, -, -, hk⟩ := plusLoop_some q g _ s r h
      obtain ⟨c, hc, hpc⟩ := ih cs cap t hm hk
      exact ⟨c, List.mem_append_right _ hc, hpc⟩
    | capOpen =>
      have hm : Node.one p ∈ ns := by
        rcases List.mem_cons.mp hmem with e | hm
        · cases e
        · exact hm
      exact ih _ _ _ hm h
    | capClose =>
      have hm : Node.one p ∈ ns := by
        rcases List.mem_cons.mp hmem with e | hm
        · cases e
        · exact hm
      exact ih _ _ _ hm h
    | endText =>
      have hm : Node.one p ∈ ns := by
        rcases List.mem_cons.mp hmem with e | hm
        · cases e
        · exact hm
      simp only [run] at h
      split at h
      · exact ih _ _ _ hm h
      · simp at h

theorem find_some_run (re : List Node) (s : List Char) (r : List Char × List Char)
    (h : find re s = some r) :
    ∃ u t r1, s = u ++ t ∧ run re [] [] t = some r1 ∧ r1.1 = r.2 := by
  induction s with
  | nil =>
    simp only [find, Option.map_eq_some'] at h
    obtain ⟨r1, h1, h2⟩ := h
    exact ⟨[], [], r1, rfl, h1, by rw [← h2]⟩
  | cons c t ih =>
    rw [find] at h
    cases hr : run re [] [] (c :: t) with
    | some r1 =>
      rw [hr] at h
      simp only [Option.some.injEq] at h
      exact ⟨[], c :: t, r1, rfl, hr, by rw [← h]⟩
    | none =>
      rw [hr] at h
      obtain ⟨u, t1, r1, e, h1, h2⟩ := ih h
      exact ⟨c :: u, t1, r1, by rw [e]; rfl, h1, h2⟩

theorem find_none_of_not_mem (p : Char → Bool) (re : List Node) (s : List Char)
    (hmem : Node.one p ∈ re) (hs : ∀ c ∈ s, p c = false) : find re s = none := by
  cases h : find re s with
  | none => rfl
  | some r =>
    obtain ⟨u, t, r1, rfl, h1, -⟩ := find_some_run re s r h
    obtain ⟨c, hc, hpc⟩ := run_mem_one p re [] [] t r1 hmem h1
    rw [hs c (List.mem_append_right _ hc)] at hpc
    exact absurd hpc (by decide)

theorem capture_digitOrDot (s m c : String) (h : FindStringSubmatch percentRE s = [m, c]) :
    c.data ≠ [] ∧ ∀ x ∈ c.data, digitOrDot x = true := by
  unfold FindStringSubmatch at h
  cases hf : find percentRE s.data with
  | none => simp [hf] at h
  | some r =>
    obtain ⟨m0, c0⟩ := r
    simp only [hf, List.cons.injEq, and_true] at h
    obtain ⟨-, rfl⟩ := h
    obtain ⟨u, t, r1, -, h1, hr⟩ := find_some_run percentRE _ _ hf
    have e : percentRE = ("download".data.map fun c => Node.one fun x => x == c) ++
        (.plus dot false :: ([.capOpen, .plus digitOrDot true, .capClose] ++ lits "%")) := by
      simp [percentRE, lits]
    rw [e] at h1
    obtain ⟨t1, -, h2⟩ := run_lits_some _ _ _ _ _ _ h1
    rw [run] at h2
    obtain ⟨a, t2, -, -, -, h3⟩ := plusLoop_some _ _ _ _ _ h2
    simp only [List.cons_append, List.nil_append, run] at h3
    obtain ⟨b, t3, rfl, hb, hbd, h4⟩ := plusLoop_some _ _ _ _ _ h3
    have h5 : r1.1 = b := by
      cases t3 with
      | nil => simp [lits, run] at h4
      | cons x t4 =>
        simp only [lits, List.map_cons, List.map_nil, run] at h4
        split at h4
        · simp only [Option.some.injEq] at h4
          rw [← h4]
          simp
        · simp at h4
    simp only at hr
    rw [← hr, h5]
    exact ⟨hb, hbd⟩

theorem find_percentRE_none (s : List Char) (hs : '%' ∉ s) : find percentRE s = none := by
  apply find_none_of_not_mem (fun x => x == '%') percentRE s
  · simp [percentRE, lits]
  · intro c hc
    cases h : c == '%'
    · rfl
    · have : c = '%' := by simpa using h
      subst this
      exact absurd hc hs

theorem find_etaRE_some (s : List Char) (r : List Char × List Char)
    (h : find etaRE s = some r) : ∃ x y, s = x ++ "ETA".data ++ y := by
  obtain ⟨u, t, r1, rfl, h1, -⟩ := find_some_run etaRE _ r h
  have e : etaRE = ("download".data.map fun c => Node.one fun x => x == c) ++
      (.plus dot true :: (("ETA".data.map fun c => Node.one fun x => x == c) ++
        [.plus space true, .capOpen, .one digit, .one digit,
        .one (fun x => x == ':'), .one digit, .one digit, .capClose])) := by
    simp [etaRE, lits]
  rw [e] at h1
  obtain ⟨t1, rfl, h2⟩ := run_lits_some _ _ _ _ _ _ h1
  rw [run] at h2
  obtain ⟨a, t2, rfl, -, -, h3⟩ := plusLoop_some _ _ _ _ _ h2
  obtain ⟨t3, rfl, -⟩ := run_lits_some _ _ _ _ _ _ h3
  exact ⟨u ++ ("download".data ++ a), t3, by simp⟩

theorem occurs_of_append (w F y : List Char) (c : Char) (pre x : List Char)
    (hpre : ∀ d ∈ pre, d ≠ c) (h : pre ++ F = x ++ (c :: w) ++ y) :
    ∃ x1, F = x1 ++ (c :: w) ++ y := by
  induction pre generalizing x with
  | nil => exact ⟨x, h⟩
  | cons d pre ih =>
    cases x with
    | nil =>
      simp only [List.nil_append, List.cons_append, List.cons.injEq] at h
      exact absurd h.1 (hpre d (List.mem_cons_self _ _))
    | cons x0 x =>
      simp only [List.cons_append, List.cons.injEq] at h
      exact ih x (fun e he => hpre e (List.mem_cons_of_mem _ he)) (by simpa using h.2)

/-! ## Lemmas on `updateMetadata` -/

theorem updateMetadata_frame (dl : download) (s : String) (dl1 : download)
    (h : updateMetadata dl s = .ok dl1) :
    dl1.Id = dl.Id ∧ dl1.Url = dl.Url ∧ dl1.Pid = dl.Pid ∧ dl1.ExitCode = dl.ExitCode ∧
      dl1.Finished = dl.Finished ∧ dl1.Log = dl.Log ∧
      dl1.State = (if (FindStringSubmatch etaRE s).length = 2 then "downloading" else dl.State) := by
  rcases FindStringSubmatch_cases etaRE s with e1 | ⟨m1, c1, e1⟩ <;>
  rcases FindStringSubmatch_cases percentRE s with e2 | ⟨m2, c2, e2⟩ <;>
  rcases FindStringSubmatch_cases filename s with e3 | ⟨m3, c3, e3⟩ <;>
  simp only [updateMetadata, e1, e2, e3] at h ⊢ <;>
  first
  | (cases hp : ParseFloat32 c2 <;> simp [hp] at h <;> subst h <;> simp)
  | (simp at h; subst h; simp)

theorem updateMetadata_log (dl : download) (s : String) (L : List String) :
    updateMetadata { dl with Log := L } s =
      match updateMetadata dl s with
      | .ok d => .ok { d with Log := L }
      | .error err => .error err := by
  rcases FindStringSubmatch_cases etaRE s with e1 | ⟨m1, c1, e1⟩ <;>
  rcases FindStringSubmatch_cases percentRE s with e2 | ⟨m2, c2, e2⟩ <;>
  rcases FindStringSubmatch_cases filename s with e3 | ⟨m3, c3, e3⟩ <;>
  simp only [updateMetadata, e1, e2, e3] <;>
  first
  | (cases hp : ParseFloat32 c2 <;> simp [hp])
  | simp

theorem updateMetadata_files (dl : download) (s : String) (m c : String) (dl1 : download)
    (e3 : FindStringSubmatch filename s = [m, c]) (h : updateMetadata dl s = .ok dl1) :
    dl1.Files = dl.Files ++ [c] := by
  rcases FindStringSubmatch_cases etaRE s with e1 | ⟨m1, c1, e1⟩ <;>
  rcases FindStringSubmatch_cases percentRE s with e2 | ⟨m2, c2, e2⟩ <;>
  simp only [updateMetadata, e1, e2, e3] at h ⊢ <;>
  first
  | (cases hp : ParseFloat32 c2 <;> simp [hp] at h <;> subst h <;> simp)
  | (simp at h; subst h; simp)

theorem updateMetadata_only_filename (dl : download) (s : String) (m c : String)
    (e1 : FindStringSubmatch etaRE s = []) (e2 : FindStringSubmatch percentRE s = [])
    (e3 : FindStringSubmatch filename s = [m, c]) :
    updateMetadata dl s = .ok { dl with Files := dl.Files ++ [c] } := by
  simp [updateMetadata, e1, e2, e3]

/-! ## The claims on `updateMetadata` -/

theorem destination_line_data (F : String) :
    ("[download] Destination: " ++ F).data =
      '[' :: ("download".data ++ (']' :: ' ' :: ("Destination: ".data ++ F.data))) := by
  simp [String.data_append]

/-- C2 (amended): for every job and every non-empty filename `F` without a newline, on
the line `[download] Destination: F` the filename pattern captures exactly `F`, so
whenever `updateMetadata` returns, `files` is the old `files` followed by `F`; and when
`F` contains no `%` and no `ETA`, it returns the job with `F` appended to `files` and
every other field, `percent` and `eta` among them, unchanged. -/
theorem updateMetadata_destination (dl : download) (F : String) (hF : F ≠ "")
    (hnl : '\n' ∉ F.data) :
    (∀ dl1, updateMetadata dl ("[download] Destination: " ++ F) = .ok dl1 →
        dl1.Files = dl.Files ++ [F]) ∧
    ('%' ∉ F.data → ¬ "ETA".data <:+: F.data →
        updateMetadata dl ("[download] Destination: " ++ F) =
          .ok { dl with Files := dl.Files ++ [F] }) := by
  have hFd : F.data ≠ [] := by
    intro h
    apply hF
    cases F
    simp_all
  have hdot : ∀ c ∈ F.data, dot c = true := by
    intro c hc
    cases h : dot c
    · have : c = '\n' := by simpa [dot] using h
      subst this
      exact absurd hc hnl
    · rfl
  obtain ⟨m, hm⟩ := find_filename F.data hFd hdot
  rw [← destination_line_data] at hm
  have e3 := FindStringSubmatch_some filename _ _ _ hm
  refine ⟨fun dl1 h => updateMetadata_files dl _ _ _ dl1 e3 h, ?_⟩
  intro hpc heta
  have e2 : FindStringSubmatch percentRE ("[download] Destination: " ++ F) = [] := by
    apply FindStringSubmatch_none
    apply find_percentRE_none
    rw [String.data_append, List.mem_append]
    rintro (h | h)
    · exact absurd h (by decide)
    · exact hpc h
  have e1 : FindStringSubmatch etaRE ("[download] Destination: " ++ F) = [] := by
    apply FindStringSubmatch_none
    cases h : find etaRE ("[download] Destination: " ++ F).data with
    | none => rfl
    | some r =>
      exfalso
      obtain ⟨x, y, hxy⟩ := find_etaRE_some _ r h
      rw [String.data_append] at hxy
      obtain ⟨x1, hx1⟩ := occurs_of_append "TA".data F.data y 'E' _ x (by decide) hxy
      exact heta ⟨x1, y, hx1.symm⟩
  exact updateMetadata_only_filename dl _ _ _ e1 e2 e3

/-- C2, witness: the filename `My Video.mp4`. -/
theorem updateMetadata_destination_witness :
    updateMetadata sampleJob ("[download] Destination: " ++ "My Video.mp4") =
      .ok { sampleJob with Files := sampleJob.Files ++ ["My Video.mp4"] } :=
  (updateMetadata_destination sampleJob "My Video.mp4" (by decide) (by decide)).2
    (by decide) (by decide)

set_option maxRecDepth 100000 in
/-- C2, counterexample: the filename `My 100% Video.mp4` also matches the percent
pattern, and `percent` becomes 100. -/
theorem updateMetadata_destination_counterexample :
    ¬ ∀ (dl : download) (F : String), F ≠ "" → '\n' ∉ F.data →
      ∃ dl1, updateMetadata dl ("[download] Destination: " ++ F) = .ok dl1 ∧
        dl1.Files = dl.Files ++ [F] ∧ dl1.Percent = dl.Percent ∧ dl1.Eta = dl.Eta := by
  intro h
  obtain ⟨dl1, h1, -, h2, -⟩ := h sampleJob "My 100% Video.mp4" (by decide) (by decide)
  have e : updateMetadata sampleJob ("[download] Destination: " ++ "My 100% Video.mp4") =
      .ok { sampleJob with Files := ["My 100% Video.mp4"], Percent := ⟨0x42C80000⟩ } := by
    decide
  rw [e] at h1
  injection h1 with h1
  subst h1
  exact absurd h2 (by decide)

/-- C6 (amended): `updateMetadata` does not look at `finished`. On every line on which it
returns, `finished` is what it was, and `state` is "downloading" when the ETA pattern
matches the line, for a finished job too, and is unchanged when it does not match. -/
theorem updateMetadata_state (dl : download) (s : String) (dl1 : download)
    (h : updateMetadata dl s = .ok dl1) :
    dl1.Finished = dl.Finished ∧
      ((FindStringSubmatch etaRE s).length = 2 → dl1.State = "downloading") ∧
      ((FindStringSubmatch etaRE s).length ≠ 2 → dl1.State = dl.State) := by
  obtain ⟨-, -, -, -, hfin, -, hst⟩ := updateMetadata_frame dl s dl1 h
  refine ⟨hfin, fun hm => ?_, fun hm => ?_⟩
  · rw [hst, if_pos hm]
  · rw [hst, if_neg hm]

set_option maxRecDepth 100000 in
/-- C6, witness: a finished job in state "complete" keeps its state on a line without
an ETA. -/
theorem updateMetadata_state_witness :
    updateMetadata { sampleJob with State := "complete", Finished := true }
        "[download] Destination: My Video.mp4" =
      .ok { sampleJob with State := "complete", Finished := true,
                           Files := ["My Video.mp4"] } ∧
    ({ sampleJob with State := "complete", Finished := true,
                      Files := ["My Video.mp4"] } : download).State =
      ({ sampleJob with State := "complete", Finished := true } : download).State :=
  ⟨by decide,
    (updateMetadata_state { sampleJob with State := "complete", Finished := true }
      "[download] Destination: My Video.mp4"
      { sampleJob with State := "complete", Finished := true, Files := ["My Video.mp4"] }
      (by decide)).2.2 (by decide)⟩

set_option maxRecDepth 100000 in
/-- C6, counterexample: a finished job in state "complete" is moved to "downloading" by
a progress line. -/
theorem updateMetadata_state_counterexample :
    ¬ ∀ (dl : download) (s : String), dl.Finished = true →
      ∀ dl1, updateMetadata dl s = .ok dl1 → dl1.State = dl.State := by
  intro h
  have e := h { sampleJob with State := "complete", Finished := true }
    "[download]  49.7% of ~15.72MiB at 5.83MiB/s ETA 00:07" rfl
    { sampleJob with State := "downloading", Finished := true, Eta := "00:07",
                     Percent := ⟨0x4246CCCD⟩ } (by decide)
  exact absurd e (by decide)

set_option maxRecDepth 100000 in
/-- C9: `updateMetadata` panics exactly when the percent pattern matches the line and
`ParseFloat` rejects the captured numeral, with the error of `ParseFloat`; as on the line
`[download] 1.2.3%` and on a line whose capture is a lone dot. On every other line it
returns, and when the capture parses, `percent` is the parsed value. -/
theorem updateMetadata_panic (dl : download) (s : String) :
    (∀ err, updateMetadata dl s = .error err ↔
      ∃ m c, FindStringSubmatch percentRE s = [m, c] ∧ ParseFloat32 c = .error err) ∧
    (FindStringSubmatch percentRE s = [] → ∃ dl1, updateMetadata dl s = .ok dl1 ∧
      dl1.Percent = dl.Percent) ∧
    (∀ m c v, FindStringSubmatch percentRE s = [m, c] → ParseFloat32 c = .ok v →
      ∃ dl1, updateMetadata dl s = .ok dl1 ∧ dl1.Percent = v) ∧
    updateMetadata dl "[download] 1.2.3%" = .error .errSyntax ∧
    FindStringSubmatch percentRE "download x.%" = ["download x.%", "."] ∧
    updateMetadata dl "download x.%" = .error .errSyntax := by
  refine ⟨?_, ?_, ?_, ?_, by decide, ?_⟩
  · intro err
    rcases FindStringSubmatch_cases etaRE s with e1 | ⟨m1, c1, e1⟩ <;>
    rcases FindStringSubmatch_cases percentRE s with e2 | ⟨m2, c2, e2⟩ <;>
    rcases FindStringSubmatch_cases filename s with e3 | ⟨m3, c3, e3⟩ <;>
    simp only [updateMetadata, e1, e2, e3] <;>
    first
    | (cases hp : ParseFloat32 c2 <;> simp [hp] <;>
        exact ⟨fun h => ⟨m2, c2, ⟨rfl, rfl⟩, h ▸ hp⟩, fun ⟨_, _, ⟨_, hc⟩, hh⟩ => by
          subst hc; rw [hp] at hh; injection hh⟩)
    | simp
  · intro e2
    rcases FindStringSubmatch_cases etaRE s with e1 | ⟨m1, c1, e1⟩ <;>
    rcases FindStringSubmatch_cases filename s with e3 | ⟨m3, c3, e3⟩ <;>
    simp [updateMetadata, e1, e2, e3]
  · intro m c v e2 hp
    rcases FindStringSubmatch_cases etaRE s with e1 | ⟨m1, c1, e1⟩ <;>
    rcases FindStringSubmatch_cases filename s with e3 | ⟨m3, c3, e3⟩ <;>
    simp [updateMetadata, e1, e2, e3, hp]
  · have e2 : FindStringSubmatch percentRE "[download] 1.2.3%" = ["download] 1.2.3%", "1.2.3"] := by
      decide
    have hp : ParseFloat32 "1.2.3" = .error .errSyntax := by decide
    simp [updateMetadata, e2, hp]
  · have e2 : FindStringSubmatch percentRE "download x.%" = ["download x.%", "."] := by
      decide
    have hp : ParseFloat32 "." = .error .errSyntax := by decide
    simp [updateMetadata, e2, hp]

set_option maxRecDepth 100000 in
/-- C9, witness: the line `[download]  49.7%` sets `percent` to 49.7. -/
theorem updateMetadata_panic_witness :
    ∃ dl1, updateMetadata sampleJob "[download]  49.7%" = .ok dl1 ∧
      dl1.Percent = ⟨0x4246CCCD⟩ :=
  (updateMetadata_panic sampleJob "[download]  49.7%").2.2.1 "download]  49.7%" "49.7"
    ⟨0x4246CCCD⟩ (by decide) (by decide)

/-! ## The claims on the registry -/

theorem FetchHandler_some_cons (g : Registry) (url0 : String) (more : List String) :
    FetchHandler g (some (url0 :: more)) =
      { downloads := g.downloads ++
          [{ Id := wrapInt (g.downloadId + 1), Url := url0, Pid := 0, ExitCode := 0,
             State := "starting", Finished := false, Files := [], Eta := "?",
             Percent := ⟨0⟩, Log := ["start of log..."] }],
        downloadId := wrapInt (g.downloadId + 1) } := by
  simp [FetchHandler]

/-- C4 (amended): for every registry and every url, a submission registers, after all
earlier jobs and leaving them as they were, a job whose id is the next identifier, whose
url is the given url, with state "starting", finished false, eta "?", percent 0, no
files, and a log that holds the one line "start of log...". -/
theorem FetchHandler_submit (g : Registry) (url0 : String) (more : List String) :
    FetchHandler g (some (url0 :: more)) =
      { downloads := g.downloads ++
          [{ Id := wrapInt (g.downloadId + 1), Url := url0, Pid := 0, ExitCode := 0,
             State := "starting", Finished := false, Files := [], Eta := "?",
             Percent := ⟨0⟩, Log := ["start of log..."] }],
        downloadId := wrapInt (g.downloadId + 1) } := by
  simp [FetchHandler]

/-- C4, counterexample: the job registered by a submission has a log that is not
empty. -/
theorem FetchHandler_submit_counterexample :
    ¬ ∀ (g : Registry) (url0 : String), ∃ dl,
      (FetchHandler g (some [url0])).downloads = g.downloads ++ [dl] ∧
        dl.Id = wrapInt (g.downloadId + 1) ∧ dl.Url = url0 ∧ dl.State = "starting" ∧
        dl.Finished = false ∧ dl.Eta = "?" ∧ dl.Percent = ⟨0⟩ ∧ dl.Log = [] ∧
        dl.Files = [] := by
  intro h
  obtain ⟨dl, h1, -, -, -, -, -, -, h2, -⟩ := h Registry.init "u"
  have e : (FetchHandler Registry.init (some ["u"])).downloads = [sampleJob] := by decide
  rw [e] at h1
  simp [Registry.init] at h1
  subst h1
  exact absurd h2 (by decide)

theorem wrapInt_of_lt (x : Int) (h0 : 0 ≤ x) (h1 : x < 2 ^ 63) : wrapInt x = x := by
  unfold wrapInt
  omega

/-- The invariant of the registry: the counter has not wrapped, no id exceeds it, and
the ids increase strictly along the registry. Only the requests that carry a url count
towards the bound. -/
theorem FetchHandler_all_inv (queries : List (Option (List String))) (g : Registry) (n : Nat)
    (hn : 0 ≤ g.downloadId ∧ g.downloadId ≤ n)
    (hlen : n + (queries.filter Option.isSome).length < 2 ^ 63)
    (hle : ∀ dl ∈ g.downloads, dl.Id ≤ g.downloadId)
    (hs : (g.downloads.map fun dl => dl.Id).Pairwise (fun a b => a < b)) :
    (0 ≤ (FetchHandler.all g queries).downloadId ∧
      (FetchHandler.all g queries).downloadId ≤ (n + (queries.filter Option.isSome).length : Nat)) ∧
      (∀ dl ∈ (FetchHandler.all g queries).downloads,
        dl.Id ≤ (FetchHandler.all g queries).downloadId) ∧
      ((FetchHandler.all g queries).downloads.map fun dl => dl.Id).Pairwise
        (fun a b => a < b) := by
  induction queries generalizing g n with
  | nil => exact ⟨by simpa [FetchHandler.all] using hn, hle, hs⟩
  | cons q queries ih =>
    have e : FetchHandler.all g (q :: queries) = FetchHandler.all (FetchHandler g q) queries := rfl
    rw [e]
    cases q with
    | none =>
      have hf : ((none :: queries).filter Option.isSome).length =
          (queries.filter Option.isSome).length := by simp
      rw [hf] at hlen ⊢
      exact ih g n hn hlen hle hs
    | some url =>
      have hf : ((some url :: queries).filter Option.isSome).length =
          (queries.filter Option.isSome).length + 1 := by simp
      rw [hf] at hlen ⊢
      have hlen1 : (n : Int) + 1 < 2 ^ 63 := by
        have h2 : n + 1 < 2 ^ 63 := by omega
        exact_mod_cast h2
      have hw : wrapInt (g.downloadId + 1) = g.downloadId + 1 :=
        wrapInt_of_lt _ (by omega) (by omega)
      have key : (0 ≤ (FetchHandler g (some url)).downloadId ∧
            (FetchHandler g (some url)).downloadId ≤ (n + 1 : Nat)) ∧
          (∀ dl ∈ (FetchHandler g (some url)).downloads,
            dl.Id ≤ (FetchHandler g (some url)).downloadId) ∧
          ((FetchHandler g (some url)).downloads.map fun dl => dl.Id).Pairwise
            (fun a b => a < b) := by
        rcases url with _ | ⟨url0, more⟩
        · refine ⟨⟨?_, ?_⟩, ?_, hs⟩
          · simp only [FetchHandler, hw]; omega
          · simp only [FetchHandler, hw]; push_cast; omega
          · intro dl hdl
            have := hle dl hdl
            simp only [FetchHandler, hw]
            omega
        · rw [FetchHandler_some_cons, hw]
          refine ⟨⟨by simp; omega, by simp; omega⟩, ?_, ?_⟩
          · intro dl hdl
            simp only [List.mem_append, List.mem_singleton] at hdl
            rcases hdl with hdl | rfl
            · have := hle dl hdl
              simp only
              omega
            · simp
          · simp only [List.map_append, List.map_cons, List.map_nil]
            rw [List.pairwise_append]
            refine ⟨hs, by simp, ?_⟩
            intro a ha b hb
            simp only [List.mem_singleton] at hb
            subst hb
            obtain ⟨dl, hdl, rfl⟩ := List.mem_map.mp ha
            have := hle dl hdl
            omega
      obtain ⟨⟨a, b⟩, c, d⟩ := ih (FetchHandler g (some url)) (n + 1) key.1
        (by omega) key.2.1 key.2.2
      refine ⟨⟨a, ?_⟩, c, d⟩
      push_cast at b ⊢
      omega

/-- C3: in every run of `FetchHandler` from the empty registry (fewer than 2^63 requests
with a url, the most a Go slice can register), the ids in the registry increase strictly
in submission order, hence are pairwise distinct, and the job a further submission
registers gets an id strictly greater than the id of every job already there. -/
theorem FetchHandler_ids_increasing (queries : List (Option (List String)))
    (hlen : (queries.filter Option.isSome).length + 1 < 2 ^ 63) :
    ((FetchHandler.all Registry.init queries).downloads.map fun dl => dl.Id).Pairwise
        (fun a b => a < b) ∧
      ((FetchHandler.all Registry.init queries).downloads.map fun dl => dl.Id).Nodup ∧
      ∀ (url0 : String) (more : List String), ∃ new,
        (FetchHandler (FetchHandler.all Registry.init queries) (some (url0 :: more))).downloads =
          (FetchHandler.all Registry.init queries).downloads ++ [new] ∧
        ∀ dl ∈ (FetchHandler.all Registry.init queries).downloads, dl.Id < new.Id := by
  obtain ⟨⟨a, b⟩, c, d⟩ := FetchHandler_all_inv queries Registry.init 0
    (by simp [Registry.init]) (by omega) (by simp [Registry.init]) (by simp [Registry.init])
  refine ⟨d, ?_, ?_⟩
  · exact d.imp (fun h => ne_of_lt h)
  · intro url0 more
    refine ⟨_, by rw [FetchHandler_some_cons], ?_⟩
    intro dl hdl
    have h1 := c dl hdl
    have hw : wrapInt ((FetchHandler.all Registry.init queries).downloadId + 1) =
        (FetchHandler.all Registry.init queries).downloadId + 1 :=
      wrapInt_of_lt _ (by omega) (by push_cast at b; omega)
    simp only [hw]
    omega

/-- C3, witness: two submissions with a request without url in between. -/
theorem FetchHandler_ids_increasing_witness :
    ((FetchHandler.all Registry.init [some ["a"], none, some ["b"]]).downloads.map
      fun dl => dl.Id).Pairwise (fun a b => a < b) :=
  (FetchHandler_ids_increasing [some ["a"], none, some ["b"]] (by decide)).1

/-! ## Lemmas on the drain -/

theorem splitNL_ne_nil (s : List Char) : splitNL s ≠ [] := by
  induction s with
  | nil => simp [splitNL]
  | cons c s ih =>
    rw [splitNL]
    split
    · simp
    · split <;> simp

theorem splitNL_append_newline (x y : List Char) :
    splitNL (x ++ '\n' :: y) = splitNL x ++ splitNL y := by
  induction x with
  | nil => simp [splitNL]
  | cons c x ih =>
    by_cases hc : c = '\n'
    · simp [splitNL, hc, ih]
    · have e : splitNL (c :: x ++ '\n' :: y) =
          match splitNL (x ++ '\n' :: y) with
          | [] => [[c]]
          | l :: ls => (c :: l) :: ls := by
        simp [splitNL, hc]
      rw [e, ih]
      simp only [splitNL, hc, if_false]
      cases h : splitNL x with
      | nil => exact absurd h (splitNL_ne_nil x)
      | cons l ls => simp

theorem nonEmptyLines_append (a b : String) (h : a = "" ∨ ∃ x, a = x ++ "\n") :
    nonEmptyLines (a ++ b) = nonEmptyLines a ++ nonEmptyLines b := by
  rcases h with rfl | ⟨x, rfl⟩
  · have e : ("" : String) ++ b = b := by
      apply String.ext
      simp [String.data_append]
    rw [e]
    simp [nonEmptyLines, Split, splitNL]
  · have e1 : (x ++ "\n" ++ b).data = x.data ++ '\n' :: b.data := by
      simp [String.data_append]
    have e2 : (x ++ "\n").data = x.data ++ '\n' :: [] := by
      simp [String.data_append]
    simp only [nonEmptyLines, Split, e1, e2, splitNL_append_newline, List.map_append,
      List.filter_append]
    simp [splitNL]

theorem drainLines_append (dl : download) (a b : List String) :
    drainLines dl (a ++ b) =
      match drainLines dl a with
      | .ok d => drainLines d b
      | .error err => .error err := by
  induction a generalizing dl with
  | nil => simp [drainLines]
  | cons l a ih =>
    by_cases hl : l = ""
    · simp [drainLines, hl, ih]
    · simp only [List.cons_append, drainLines, hl, if_false]
      cases updateMetadata { dl with Log := dl.Log ++ [l] } l with
      | error err => simp
      | ok d => simp [ih]

theorem drainLines_filter (dl : download) (ls : List String) :
    drainLines dl ls = drainLines dl (ls.filter fun l => l ≠ "") := by
  induction ls generalizing dl with
  | nil => simp
  | cons l ls ih =>
    by_cases hl : l = ""
    · simp [drainLines, hl, ih]
    · simp only [drainLines, hl, if_false, List.filter_cons, ne_eq, not_false_eq_true,
        decide_True, if_true]
      cases updateMetadata { dl with Log := dl.Log ++ [l] } l with
      | error err => simp
      | ok d => simp [ih]

theorem metadataOfLines_log (dl : download) (L : List String) (ls : List String) :
    metadataOfLines { dl with Log := L } ls =
      match metadataOfLines dl ls with
      | .ok d => .ok { d with Log := L }
      | .error err => .error err := by
  induction ls generalizing dl with
  | nil => simp [metadataOfLines]
  | cons l ls ih =>
    simp only [metadataOfLines, updateMetadata_log]
    cases updateMetadata dl l with
    | error err => simp
    | ok d => simp [ih]

theorem drainLines_eq (dl : download) (ls : List String) (hne : ∀ l ∈ ls, l ≠ "") :
    drainLines dl ls =
      match metadataOfLines dl ls with
      | .ok d => .ok { d with Log := dl.Log ++ ls }
      | .error err => .error err := by
  induction ls generalizing dl with
  | nil => simp [drainLines, metadataOfLines]
  | cons l ls ih =>
    have hl : l ≠ "" := hne l (List.mem_cons_self _ _)
    simp only [drainLines, hl, if_false, metadataOfLines, updateMetadata_log]
    cases h : updateMetadata dl l with
    | error err => simp
    | ok d =>
      have hlog : d.Log = dl.Log := (updateMetadata_frame dl l d h).2.2.2.2.2.1
      simp only
      rw [ih _ (fun x hx => hne x (List.mem_cons_of_mem _ hx)), metadataOfLines_log]
      cases metadataOfLines d ls with
      | error err => simp
      | ok d1 => simp

theorem updateDownload_eq_drainLines (r : List String) (dl : download)
    (h : ∀ buf ∈ r, buf = "" ∨ ∃ x, buf = x ++ "\n") :
    updateDownload r dl = drainLines dl (nonEmptyLines (content r)) := by
  induction r generalizing dl with
  | nil => simp [updateDownload, content, nonEmptyLines, Split, splitNL, drainLines]
  | cons buf r ih =>
    have hr : ∀ b ∈ r, b = "" ∨ ∃ x, b = x ++ "\n" := fun b hb => h b (List.mem_cons_of_mem _ hb)
    have hc : content (buf :: r) = buf ++ content r := rfl
    rw [hc, nonEmptyLines_append _ _ (h buf (List.mem_cons_self _ _)), drainLines_append]
    by_cases hb : buf.length > 0
    · simp only [updateDownload, hb, if_true]
      have : drainLines dl (Split buf) = drainLines dl (nonEmptyLines buf) := drainLines_filter _ _
      rw [this]
      cases drainLines dl (nonEmptyLines buf) with
      | error err => simp
      | ok d => simp [ih d hr]
    · have hbe : buf = "" := by
        cases buf with
        | mk data =>
          cases data with
          | nil => rfl
          | cons c t => simp [String.length] at hb
      subst hbe
      simp only [updateDownload, hb, if_false]
      simp [nonEmptyLines, Split, splitNL, drainLines, ih dl hr]

theorem updateDownload_eq_metadataOfLines (r : List String) (dl : download)
    (h : ∀ buf ∈ r, buf = "" ∨ ∃ x, buf = x ++ "\n") :
    updateDownload r dl =
      match metadataOfLines dl (nonEmptyLines (content r)) with
      | .ok d => .ok { d with Log := dl.Log ++ nonEmptyLines (content r) }
      | .error err => .error err := by
  rw [updateDownload_eq_drainLines r dl h]
  apply drainLines_eq
  intro l hl
  simpa [nonEmptyLines] using (List.mem_filter.mp hl).2

/-- C8 (amended): for a drain that has the job to itself and a stream whose every read is
empty or ends with a newline: when `updateMetadata`, applied in stream order to the
non-empty lines of the whole stream, panics on none of them, `updateDownload` returns,
its log is the old log followed by exactly these lines, each once, in that order, and its
other fields are those this run of `updateMetadata` gives; when a line makes
`updateMetadata` panic, `updateDownload` panics with the same error and returns no job. -/
theorem updateDownload_lines (r : List String) (dl : download)
    (h : ∀ buf ∈ r, buf = "" ∨ ∃ x, buf = x ++ "\n") :
    (∀ d, metadataOfLines dl (nonEmptyLines (content r)) = .ok d →
      updateDownload r dl = .ok { d with Log := dl.Log ++ nonEmptyLines (content r) }) ∧
    (∀ err, metadataOfLines dl (nonEmptyLines (content r)) = .error err →
      updateDownload r dl = .error err) := by
  have e := updateDownload_eq_metadataOfLines r dl h
  constructor
  · intro d hd
    rw [e, hd]
  · intro err herr
    rw [e, herr]

set_option maxRecDepth 100000 in
/-- C8, witness: a progress line and a destination line in two reads, with an empty line
between them; the log gains the two lines and the fields are updated. -/
theorem updateDownload_lines_witness :
    updateDownload ["[download]  49.7% of 1MiB ETA 00:07\n",
        "\n[download] Destination: My Video.mp4\n"] sampleJob =
      .ok { sampleJob with
              State := "downloading", Eta := "00:07", Percent := ⟨0x4246CCCD⟩,
              Files := ["My Video.mp4"],
              Log := ["start of log...", "[download]  49.7% of 1MiB ETA 00:07",
                      "[download] Destination: My Video.mp4"] } :=
  (updateDownload_lines ["[download]  49.7% of 1MiB ETA 00:07\n",
      "\n[download] Destination: My Video.mp4\n"] sampleJob (by
    intro buf hb
    simp only [List.mem_cons, List.mem_singleton, List.not_mem_nil, or_false] at hb
    rcases hb with rfl | rfl
    · exact Or.inr ⟨"[download]  49.7% of 1MiB ETA 00:07", by decide⟩
    · exact Or.inr ⟨"\n[download] Destination: My Video.mp4", by decide⟩)).1
    { sampleJob with State := "downloading", Eta := "00:07", Percent := ⟨0x4246CCCD⟩,
                     Files := ["My Video.mp4"] }
    (by decide)

set_option maxRecDepth 100000 in
/-- C8, counterexample: on the single read `[download] 1.2.3%` newline `after` newline
the drain panics at the first line; no job is returned and the line `after` is never
logged. -/
theorem updateDownload_lines_counterexample :
    ¬ ∀ (r : List String) (dl : download), (∀ buf ∈ r, buf = "" ∨ ∃ x, buf = x ++ "\n") →
      ∃ d, updateDownload r dl = .ok d ∧ d.Log = dl.Log ++ nonEmptyLines (content r) := by
  intro h
  obtain ⟨d, h1, -⟩ := h ["[download] 1.2.3%\nafter\n"] sampleJob (by
    intro buf hb
    simp only [List.mem_singleton] at hb
    subst hb
    exact Or.inr ⟨"[download] 1.2.3%\nafter", by decide⟩)
  have e : updateDownload ["[download] 1.2.3%\nafter\n"] sampleJob = .error .errSyntax := by
    decide
  rw [e] at h1
  exact absurd h1 (by simp)

set_option maxRecDepth 100000 in
/-- C10: the same bytes, cut in the middle of the line `[download]  49.7% of 1MiB ETA 00:07`
or delivered in one read, give different jobs: two log entries and `percent`, `eta`,
`state` as before in the first case, one log entry and 49.7, "00:07", "downloading" in
the second. -/
theorem updateDownload_cut (dl : download) :
    content ["[download]  49.", "7% of 1MiB ETA 00:07\n"] =
        content ["[download]  49.7% of 1MiB ETA 00:07\n"] ∧
      updateDownload ["[download]  49.", "7% of 1MiB ETA 00:07\n"] dl =
        .ok { dl with Log := dl.Log ++ ["[download]  49.", "7% of 1MiB ETA 00:07"] } ∧
      updateDownload ["[download]  49.7% of 1MiB ETA 00:07\n"] dl =
        .ok { dl with Log := dl.Log ++ ["[download]  49.7% of 1MiB ETA 00:07"],
                      Percent := ⟨0x4246CCCD⟩, Eta := "00:07", State := "downloading" } := by
  have a1 : FindStringSubmatch etaRE "[download]  49." = [] := by decide
  have a2 : FindStringSubmatch percentRE "[download]  49." = [] := by decide
  have a3 : FindStringSubmatch filename "[download]  49." = [] := by decide
  have b1 : FindStringSubmatch etaRE "7% of 1MiB ETA 00:07" = [] := by decide
  have b2 : FindStringSubmatch percentRE "7% of 1MiB ETA 00:07" = [] := by decide
  have b3 : FindStringSubmatch filename "7% of 1MiB ETA 00:07" = [] := by decide
  have c1 : FindStringSubmatch etaRE "[download]  49.7% of 1MiB ETA 00:07" =
      ["download]  49.7% of 1MiB ETA 00:07", "00:07"] := by decide
  have c2 : FindStringSubmatch percentRE "[download]  49.7% of 1MiB ETA 00:07" =
      ["download]  49.7%", "49.7"] := by decide
  have c3 : FindStringSubmatch filename "[download]  49.7% of 1MiB ETA 00:07" = [] := by decide
  have hp : ParseFloat32 "49.7" = .ok ⟨0x4246CCCD⟩ := by decide
  have s1 : Split "[download]  49." = ["[download]  49."] := by decide
  have s2 : Split "7% of 1MiB ETA 00:07\n" = ["7% of 1MiB ETA 00:07", ""] := by decide
  have s3 : Split "[download]  49.7% of 1MiB ETA 00:07\n" =
      ["[download]  49.7% of 1MiB ETA 00:07", ""] := by decide
  have n1 : "[download]  49." ≠ "" := by decide
  have n2 : "7% of 1MiB ETA 00:07" ≠ "" := by decide
  have n3 : "[download]  49.7% of 1MiB ETA 00:07" ≠ "" := by decide
  have l1 : "[download]  49.".length > 0 := by decide
  have l2 : "7% of 1MiB ETA 00:07\n".length > 0 := by decide
  have l3 : "[download]  49.7% of 1MiB ETA 00:07\n".length > 0 := by decide
  refine ⟨by decide, ?_, ?_⟩
  · simp [updateDownload, drainLines, updateMetadata, l1, l2, s1, s2, n1, n2, a1, a2, a3, b1, b2, b3]
  · simp [updateDownload, drainLines, updateMetadata, l3, s3, n3, c1, c2, c3, hp]

theorem FetchInfoHandler_loop_none (id : Int) (downloads : List download)
    (h : ∀ dl ∈ downloads, dl.Id ≠ id) : FetchInfoHandler.loop id downloads = .nothing := by
  induction downloads with
  | nil => rfl
  | cons dl rest ih =>
    have h1 : dl.Id ≠ id := h dl (List.mem_cons_self _ _)
    simp only [FetchInfoHandler.loop, h1, if_false]
    exact ih fun d hd => h d (List.mem_cons_of_mem _ hd)

theorem FetchInfoHandler_loop_some (id : Int) (downloads : List download) (dl : download)
    (h : downloads.find? (fun d => d.Id = id) = some dl) :
    FetchInfoHandler.loop id downloads = .wrote dl := by
  induction downloads with
  | nil => simp at h
  | cons d rest ih =>
    by_cases h1 : d.Id = id
    · simp only [List.find?, h1, decide_True, Option.some.injEq] at h
      subst h
      simp [FetchInfoHandler.loop, h1]
    · simp only [List.find?, h1, decide_False] at h
      simp only [FetchInfoHandler.loop, h1, if_false]
      exact ih h

theorem Atoi_ok_ne_empty (s : String) (id : Int) (h : Atoi s = .ok id) : s ≠ "" := by
  intro hs
  subst hs
  simp [Atoi] at h

/-- C5: for an id that parses, `FetchInfoHandler` writes the first job of the registry
with that id when there is one; when no job has the id it sends nothing at all, neither
a job nor the 404 that the claim asks for and that the handler sends for an id that does
not parse. -/
theorem FetchInfoHandler_lookup (downloads : List download) (idString : String) (id : Int)
    (hid : Atoi idString = .ok id) :
    (∀ dl, downloads.find? (fun d => d.Id = id) = some dl →
      FetchInfoHandler downloads idString = .wrote dl) ∧
    ((∀ dl ∈ downloads, dl.Id ≠ id) → FetchInfoHandler downloads idString = .nothing) := by
  have hne := Atoi_ok_ne_empty idString id hid
  constructor
  · intro dl h
    simp only [FetchInfoHandler, hne, ne_eq, not_false_eq_true, if_true, hid]
    exact FetchInfoHandler_loop_some id downloads dl h
  · intro h
    simp only [FetchInfoHandler, hne, ne_eq, not_false_eq_true, if_true, hid]
    exact FetchInfoHandler_loop_none id downloads h

/-- C5, at the failing input: the registry holds job 1 and the request asks for job 7. -/
theorem FetchInfoHandler_lookup_witness :
    FetchInfoHandler [sampleJob] "7" = .nothing ∧ FetchInfoHandler [sampleJob] "x" = .notFound :=
  ⟨(FetchInfoHandler_lookup [sampleJob] "7" 7 (by decide)).2 (by decide), by decide⟩

/-! ## Lemmas on `ParseFloat32` -/

theorem log2Floor_spec (fuel n : Nat) (h : n ≤ fuel) :
    n < 2 ^ (log2Floor fuel n + 1) ∧ (1 ≤ n → 2 ^ log2Floor fuel n ≤ n) := by
  induction fuel generalizing n with
  | zero =>
    have : n = 0 := by omega
    subst this
    simp [log2Floor]
  | succ fuel ih =>
    by_cases h2 : 2 ≤ n
    · have hle : n / 2 ≤ fuel := by omega
      obtain ⟨a, b⟩ := ih (n / 2) hle
      have b1 := b (by omega)
      simp only [log2Floor, h2, if_true]
      constructor
      · rw [pow_succ]
        omega
      · intro _
        rw [pow_succ]
        omega
    · simp only [log2Floor, h2, if_false]
      constructor
      · simp; omega
      · intro h1; simpa using h1

set_option exponentiation.threshold 300 in
theorem roundBits_core (N D L : Nat) (hD : 0 < D) (hQ : N / D < 2 ^ (L + 1))
    (hQ1 : 1 ≤ N / D → 2 ^ L ≤ N / D) (hL0 : N / D = 0 → L = 0)
    (hN : 2 * N < (2 ^ 25 - 1) * (D * 2 ^ 253)) :
    (L - 23) * 2 ^ 23 +
      (if D * 2 ^ (L - 23) < 2 * (N % (D * 2 ^ (L - 23))) ∨
          (2 * (N % (D * 2 ^ (L - 23))) = D * 2 ^ (L - 23) ∧ N / (D * 2 ^ (L - 23)) % 2 = 1)
        then N / (D * 2 ^ (L - 23)) + 1 else N / (D * 2 ^ (L - 23))) < 255 * 2 ^ 23 := by
  have hL : L ≤ 276 := by
    by_contra hcon
    have hL277 : 277 ≤ L := by omega
    have hpos : 1 ≤ N / D := by
      by_contra h0
      have : L = 0 := hL0 (Nat.lt_one_iff.mp (not_le.mp h0))
      omega
    have h2 : 2 ^ 277 ≤ N / D := le_trans (Nat.pow_le_pow_right (by decide) hL277) (hQ1 hpos)
    have h3 : 2 ^ 277 * D ≤ N := (Nat.le_div_iff_mul_le hD).mp h2
    have e : (2 : Nat) ^ 277 * D = 2 ^ 24 * (D * 2 ^ 253) := by
      have : (2 : Nat) ^ 277 = 2 ^ 24 * 2 ^ 253 := by rw [← pow_add]
      rw [this]; ring
    rw [e] at h3
    generalize D * 2 ^ 253 = X at h3 hN
    norm_num at h3 hN
    omega
  have hN1 : N < 2 ^ (L + 1) * D := (Nat.div_lt_iff_lt_mul hD).mp hQ
  have hden : 0 < D * 2 ^ (L - 23) := Nat.mul_pos hD (pow_pos (by decide) _)
  have hN2 : N < 2 ^ 24 * (D * 2 ^ (L - 23)) := by
    have hle : 2 ^ (L + 1) ≤ 2 ^ (L - 23 + 24) := Nat.pow_le_pow_right (by decide) (by omega)
    have e : 2 ^ 24 * (D * 2 ^ (L - 23)) = 2 ^ (L - 23 + 24) * D := by
      rw [pow_add]; ring
    rw [e]
    exact lt_of_lt_of_le hN1 (Nat.mul_le_mul_right D hle)
  have hq : N / (D * 2 ^ (L - 23)) < 2 ^ 24 := (Nat.div_lt_iff_lt_mul hden).mpr hN2
  have hdm := Nat.div_add_mod N (D * 2 ^ (L - 23))
  by_cases ht : L - 23 ≤ 252
  · generalize L - 23 = t at *
    generalize N / (D * 2 ^ t) = q at *
    split <;> norm_num at hq ⊢ <;> omega
  · have ht253 : L - 23 = 253 := by omega
    rw [ht253] at hq hdm ⊢
    by_cases hq1 : N / (D * 2 ^ 253) = 2 ^ 24 - 1
    · rw [hq1] at hdm ⊢
      generalize D * 2 ^ 253 = X at hN hdm ⊢
      generalize N % X = r at hdm ⊢
      norm_num at hN hdm ⊢
      split
      · omega
      · omega
    · generalize N / (D * 2 ^ 253) = q at hq hq1 ⊢
      norm_num at hq hq1
      split <;> norm_num <;> omega

theorem roundBits_lt (n k : Nat) (h : 2 * n < (2 ^ 25 - 1) * 2 ^ 104 * 10 ^ k) :
    roundBits n k < 255 * 2 ^ 23 := by
  have hD : 0 < 10 ^ k := pow_pos (by decide) _
  obtain ⟨hQ, hQ1⟩ := log2Floor_spec (n * 2 ^ 149 / 10 ^ k) (n * 2 ^ 149 / 10 ^ k) le_rfl
  have hL0 : n * 2 ^ 149 / 10 ^ k = 0 →
      log2Floor (n * 2 ^ 149 / 10 ^ k) (n * 2 ^ 149 / 10 ^ k) = 0 := by
    intro h0
    rw [h0]
    rfl
  have hN : 2 * (n * 2 ^ 149) < (2 ^ 25 - 1) * (10 ^ k * 2 ^ 253) := by
    have e : (2 ^ 25 - 1) * (10 ^ k * 2 ^ 253) = ((2 ^ 25 - 1) * 2 ^ 104 * 10 ^ k) * 2 ^ 149 := by
      have : (2 : Nat) ^ 253 = 2 ^ 104 * 2 ^ 149 := by rw [← pow_add]
      rw [this]; ring
    rw [e]
    have : 2 * (n * 2 ^ 149) = (2 * n) * 2 ^ 149 := by ring
    rw [this]
    exact Nat.mul_lt_mul_of_pos_right h (pow_pos (by decide) _)
  exact roundBits_core _ _ _ hD hQ hQ1 hL0 hN

set_option exponentiation.threshold 300 in
theorem roundBits_core_ge (N D L : Nat) (hD : 0 < D) (hQ : N / D < 2 ^ (L + 1))
    (hQ1 : 1 ≤ N / D → 2 ^ L ≤ N / D)
    (hN : (2 ^ 25 - 1) * (D * 2 ^ 253) ≤ 2 * N) :
    255 * 2 ^ 23 ≤ (L - 23) * 2 ^ 23 +
      (if D * 2 ^ (L - 23) < 2 * (N % (D * 2 ^ (L - 23))) ∨
          (2 * (N % (D * 2 ^ (L - 23))) = D * 2 ^ (L - 23) ∧ N / (D * 2 ^ (L - 23)) % 2 = 1)
        then N / (D * 2 ^ (L - 23)) + 1 else N / (D * 2 ^ (L - 23))) := by
  -- the quotient N / D is at least 2 ^ 276
  have h276 : 2 ^ 276 ≤ N / D := by
    rw [Nat.le_div_iff_mul_le hD]
    have e : (2 : Nat) ^ 276 * D = 2 ^ 23 * (D * 2 ^ 253) := by
      have : (2 : Nat) ^ 276 = 2 ^ 23 * 2 ^ 253 := by rw [← pow_add]
      rw [this]; ring
    rw [e]
    generalize D * 2 ^ 253 = X at hN ⊢
    norm_num at hN ⊢
    omega
  have hpos : 1 ≤ N / D := le_trans (Nat.one_le_two_pow) h276
  have hL : 276 ≤ L := by
    by_contra hcon
    have h1 : L + 1 ≤ 276 := by omega
    have h2 : 2 ^ (L + 1) ≤ 2 ^ 276 := Nat.pow_le_pow_right (by decide) h1
    omega
  have hden : 0 < D * 2 ^ (L - 23) := Nat.mul_pos hD (pow_pos (by decide) _)
  have hN2 : 2 ^ 23 * (D * 2 ^ (L - 23)) ≤ N := by
    have h3 : 2 ^ L * D ≤ N := (Nat.le_div_iff_mul_le hD).mp (hQ1 hpos)
    have e : 2 ^ 23 * (D * 2 ^ (L - 23)) = 2 ^ L * D := by
      have : L = L - 23 + 23 := by omega
      conv_rhs => rw [this, pow_add]
      ring
    rw [e]
    exact h3
  have hq : 2 ^ 23 ≤ N / (D * 2 ^ (L - 23)) := (Nat.le_div_iff_mul_le hden).mpr hN2
  have hdm := Nat.div_add_mod N (D * 2 ^ (L - 23))
  have hmod := Nat.mod_lt N hden
  by_cases ht : 254 ≤ L - 23
  · generalize L - 23 = t at *
    generalize N / (D * 2 ^ t) = q at *
    split <;> norm_num at hq ⊢ <;> omega
  · have ht253 : L - 23 = 253 := by omega
    rw [ht253] at hq hdm hmod ⊢
    by_cases hq1 : 2 ^ 24 ≤ N / (D * 2 ^ 253)
    · generalize N / (D * 2 ^ 253) = q at hq hq1 ⊢
      norm_num at hq hq1
      split <;> norm_num <;> omega
    · have hq2 : N / (D * 2 ^ 253) = 2 ^ 24 - 1 := by
        have hlt : N / (D * 2 ^ 253) < 2 ^ 24 := not_le.mp hq1
        by_contra hne
        have hle : N / (D * 2 ^ 253) ≤ 2 ^ 24 - 2 := by
          norm_num at hlt hne ⊢
          omega
        have hmul : D * 2 ^ 253 * (N / (D * 2 ^ 253)) ≤ D * 2 ^ 253 * (2 ^ 24 - 2) :=
          Nat.mul_le_mul_left _ hle
        generalize D * 2 ^ 253 * (N / (D * 2 ^ 253)) = Y at hdm hmul
        generalize D * 2 ^ 253 = X at hN hdm hmod hmul
        generalize N % X = r at hdm hmod
        norm_num at hN hmul
        omega
      rw [hq2] at hdm ⊢
      generalize D * 2 ^ 253 = X at hN hdm hmod ⊢
      generalize N % X = r at hdm hmod ⊢
      norm_num at hN hdm ⊢
      split
      · omega
      · rename_i hc
        exfalso
        apply hc
        omega

theorem roundBits_ge (n k : Nat) (h : (2 ^ 25 - 1) * 2 ^ 104 * 10 ^ k ≤ 2 * n) :
    255 * 2 ^ 23 ≤ roundBits n k := by
  have hD : 0 < 10 ^ k := pow_pos (by decide) _
  obtain ⟨hQ, hQ1⟩ := log2Floor_spec (n * 2 ^ 149 / 10 ^ k) (n * 2 ^ 149 / 10 ^ k) le_rfl
  have hN : (2 ^ 25 - 1) * (10 ^ k * 2 ^ 253) ≤ 2 * (n * 2 ^ 149) := by
    have e : (2 ^ 25 - 1) * (10 ^ k * 2 ^ 253) = ((2 ^ 25 - 1) * 2 ^ 104 * 10 ^ k) * 2 ^ 149 := by
      have : (2 : Nat) ^ 253 = 2 ^ 104 * 2 ^ 149 := by rw [← pow_add]
      rw [this]; ring
    rw [e]
    have : 2 * (n * 2 ^ 149) = (2 * n) * 2 ^ 149 := by ring
    rw [this]
    exact Nat.mul_le_mul_right _ h
  exact roundBits_core_ge _ _ _ hD hQ hQ1 hN

theorem roundBits_core_nearest (N D L : Nat) (hD : 0 < D) (hQ : N / D < 2 ^ (L + 1))
    (hQ1 : 1 ≤ N / D → 2 ^ L ≤ N / D) (hL0 : N / D = 0 → L = 0) :
    ∃ m, (L - 23) * 2 ^ 23 +
        (if D * 2 ^ (L - 23) < 2 * (N % (D * 2 ^ (L - 23))) ∨
            (2 * (N % (D * 2 ^ (L - 23))) = D * 2 ^ (L - 23) ∧ N / (D * 2 ^ (L - 23)) % 2 = 1)
          then N / (D * 2 ^ (L - 23)) + 1 else N / (D * 2 ^ (L - 23))) =
          (L - 23) * 2 ^ 23 + m ∧
      (L - 23 = 0 ∨ 2 ^ 23 ≤ m) ∧ m ≤ 2 ^ 24 ∧
      2 * (m * (D * 2 ^ (L - 23))) ≤ 2 * N + D * 2 ^ (L - 23) ∧
      2 * N ≤ 2 * (m * (D * 2 ^ (L - 23))) + D * 2 ^ (L - 23) ∧
      ((2 * (m * (D * 2 ^ (L - 23))) = 2 * N + D * 2 ^ (L - 23) ∨
        2 * N = 2 * (m * (D * 2 ^ (L - 23))) + D * 2 ^ (L - 23)) → m % 2 = 0) := by
  have hden : 0 < D * 2 ^ (L - 23) := Nat.mul_pos hD (pow_pos (by decide) _)
  have hN1 : N < 2 ^ (L + 1) * D := (Nat.div_lt_iff_lt_mul hD).mp hQ
  have hN2 : N < 2 ^ 24 * (D * 2 ^ (L - 23)) := by
    have hle : 2 ^ (L + 1) ≤ 2 ^ (L - 23 + 24) := Nat.pow_le_pow_right (by decide) (by omega)
    have e : 2 ^ 24 * (D * 2 ^ (L - 23)) = 2 ^ (L - 23 + 24) * D := by
      rw [pow_add]; ring
    rw [e]
    exact lt_of_lt_of_le hN1 (Nat.mul_le_mul_right D hle)
  have hq : N / (D * 2 ^ (L - 23)) < 2 ^ 24 := (Nat.div_lt_iff_lt_mul hden).mpr hN2
  have hnorm : L - 23 = 0 ∨ 2 ^ 23 ≤ N / (D * 2 ^ (L - 23)) := by
    by_cases ht : L - 23 = 0
    · exact Or.inl ht
    · right
      have hpos : 1 ≤ N / D := by
        by_contra h0
        have : L = 0 := hL0 (Nat.lt_one_iff.mp (not_le.mp h0))
        omega
      have h3 : 2 ^ L * D ≤ N := (Nat.le_div_iff_mul_le hD).mp (hQ1 hpos)
      have e : 2 ^ 23 * (D * 2 ^ (L - 23)) = 2 ^ L * D := by
        have : L = L - 23 + 23 := by omega
        conv_rhs => rw [this, pow_add]
        ring
      exact (Nat.le_div_iff_mul_le hden).mpr (by rw [e]; exact h3)
  have hdm := Nat.div_add_mod N (D * 2 ^ (L - 23))
  have hmod := Nat.mod_lt N hden
  generalize L - 23 = t at *
  generalize D * 2 ^ t = den at *
  generalize hq0 : N / den = q at *
  generalize N % den = r at *
  norm_num at hq hnorm
  by_cases hc : den < 2 * r ∨ (2 * r = den ∧ q % 2 = 1)
  · refine ⟨q + 1, by rw [if_pos hc], ?_, ?_, ?_, ?_, ?_⟩
    · rcases hnorm with h | h
      · exact Or.inl h
      · right; norm_num; omega
    · norm_num; omega
    · have e : (q + 1) * den = den * q + den := by ring
      rw [e]; omega
    · have e : (q + 1) * den = den * q + den := by ring
      rw [e]; omega
    · have e : (q + 1) * den = den * q + den := by ring
      rw [e]
      intro hh
      omega
  · refine ⟨q, by rw [if_neg hc], ?_, ?_, ?_, ?_, ?_⟩
    · rcases hnorm with h | h
      · exact Or.inl h
      · right; norm_num; omega
    · norm_num; omega
    · have e : q * den = den * q := by ring
      rw [e]; omega
    · have e : q * den = den * q := by ring
      rw [e]; omega
    · have e : q * den = den * q := by ring
      rw [e]
      intro hh
      omega

theorem roundBits_nearest (n k : Nat) :
    ∃ t m, roundBits n k = t * 2 ^ 23 + m ∧ (t = 0 ∨ 2 ^ 23 ≤ m) ∧ m ≤ 2 ^ 24 ∧
      2 * (m * (10 ^ k * 2 ^ t)) ≤ 2 * (n * 2 ^ 149) + 10 ^ k * 2 ^ t ∧
      2 * (n * 2 ^ 149) ≤ 2 * (m * (10 ^ k * 2 ^ t)) + 10 ^ k * 2 ^ t ∧
      ((2 * (m * (10 ^ k * 2 ^ t)) = 2 * (n * 2 ^ 149) + 10 ^ k * 2 ^ t ∨
        2 * (n * 2 ^ 149) = 2 * (m * (10 ^ k * 2 ^ t)) + 10 ^ k * 2 ^ t) → m % 2 = 0) := by
  have hD : 0 < 10 ^ k := pow_pos (by decide) _
  obtain ⟨hQ, hQ1⟩ := log2Floor_spec (n * 2 ^ 149 / 10 ^ k) (n * 2 ^ 149 / 10 ^ k) le_rfl
  have hL0 : n * 2 ^ 149 / 10 ^ k = 0 →
      log2Floor (n * 2 ^ 149 / 10 ^ k) (n * 2 ^ 149 / 10 ^ k) = 0 := by
    intro h0
    rw [h0]
    rfl
  obtain ⟨m, hm⟩ := roundBits_core_nearest _ _ _ hD hQ hQ1 hL0
  exact ⟨_, m, hm⟩

theorem ParseFloat32_ok (P : List Char) (h1 : ∀ c ∈ P, digitOrDot c = true)
    (h2 : (P.filter digit).length ≠ 0) (h3 : (P.filter fun c => c == '.').length ≤ 1)
    (h4 : 2 * digitsValue P < (2 ^ 25 - 1) * 2 ^ 104 * 10 ^ fractionDigits P) :
    ParseFloat32 (String.mk P) = .ok ⟨roundBits (digitsValue P) (fractionDigits P)⟩ := by
  have hall : P.all digitOrDot = true := by simpa using h1
  have hlt := roundBits_lt _ _ h4
  simp only [ParseFloat32, hall, h2, h3, true_and, ne_eq, not_false_eq_true, and_self, if_true,
    hlt]

theorem ParseFloat32_range (P : List Char) (h1 : ∀ c ∈ P, digitOrDot c = true)
    (h2 : (P.filter digit).length ≠ 0) (h3 : (P.filter fun c => c == '.').length ≤ 1)
    (h4 : (2 ^ 25 - 1) * 2 ^ 104 * 10 ^ fractionDigits P ≤ 2 * digitsValue P) :
    ParseFloat32 (String.mk P) = .error .errRange := by
  have hall : P.all digitOrDot = true := by simpa using h1
  have hge : ¬ roundBits (digitsValue P) (fractionDigits P) < 255 * 2 ^ 23 :=
    not_lt.mpr (roundBits_ge _ _ h4)
  simp only [ParseFloat32, hall, h2, h3, true_and, ne_eq, not_false_eq_true, and_self, if_true,
    hge, if_false]

theorem ne_nil_of_filter (P : List Char) (p : Char → Bool) (h : (P.filter p).length ≠ 0) :
    P ≠ [] := by
  intro he
  subst he
  simp at h

/-! ## The claim on progress lines -/

set_option maxRecDepth 100000 in
/-- C1 (amended): for every job, on a progress line `[download]` + spaces + P + `% of` size
` at `rate` ETA `MM:SS, where P is a numeral of digits with at most one dot, both patterns
match, with P (the whole numeral) and MM:SS as captures. When the value of P is below the
float32 overflow threshold 2^128 - 2^103, `updateMetadata` returns and sets `percent` to
the float32 nearest to P, `eta` to MM:SS and `state` to "downloading"; at or above the
threshold it panics with a range error. The line
`[download]  49.7% of ~15.72MiB at 5.83MiB/s ETA 00:07` gives percent 49.7 (bits
0x4246CCCD), eta "00:07" and state "downloading". -/
theorem updateMetadata_progress_line (dl : download) :
    (∀ (sp P size rate : List Char) (d1 d2 d3 d4 : Char),
      (∀ c ∈ sp, c = ' ') →
      (∀ c ∈ P, digitOrDot c = true) → (P.filter digit).length ≠ 0 →
      (P.filter fun c => c == '.').length ≤ 1 →
      (∀ c ∈ size, c ≠ '\n') → (∀ c ∈ rate, c ≠ '\n') →
      digit d1 = true → digit d2 = true → digit d3 = true → digit d4 = true →
      (2 * digitsValue P < (2 ^ 25 - 1) * 2 ^ 104 * 10 ^ fractionDigits P →
        ∃ dl1, updateMetadata dl (String.mk ("[download]".data ++ sp ++ P ++ "% of ".data ++
            size ++ " at ".data ++ rate ++ " ETA ".data ++ [d1, d2, ':', d3, d4])) = .ok dl1 ∧
          dl1.Percent = ⟨roundBits (digitsValue P) (fractionDigits P)⟩ ∧
          dl1.Eta = String.mk [d1, d2, ':', d3, d4] ∧ dl1.State = "downloading") ∧
      ((2 ^ 25 - 1) * 2 ^ 104 * 10 ^ fractionDigits P ≤ 2 * digitsValue P →
        updateMetadata dl (String.mk ("[download]".data ++ sp ++ P ++ "% of ".data ++
            size ++ " at ".data ++ rate ++ " ETA ".data ++ [d1, d2, ':', d3, d4])) =
          .error .errRange)) ∧
    updateMetadata dl "[download]  49.7% of ~15.72MiB at 5.83MiB/s ETA 00:07" =
      .ok { dl with Percent := ⟨0x4246CCCD⟩, Eta := "00:07", State := "downloading" } := by
  constructor
  · intro sp P size rate d1 d2 d3 d4 hsp h1 h2 h3 hsize hrate hd1 hd2 hd3 hd4
    obtain ⟨m1, m2, e1, e2⟩ := progress_line_matches sp P size rate d1 d2 d3 d4 hsp
      (ne_nil_of_filter P digit h2) h1 hsize hrate hd1 hd2 hd3 hd4
    exact ⟨fun h4 => updateMetadata_of_matches dl _ _ _ _ _ _ e1 e2 (ParseFloat32_ok P h1 h2 h3 h4),
      fun h4 => updateMetadata_error_of_parse dl _ _ _ _ e2 (ParseFloat32_range P h1 h2 h3 h4)⟩
  · have c1 : FindStringSubmatch etaRE "[download]  49.7% of ~15.72MiB at 5.83MiB/s ETA 00:07" =
        ["download]  49.7% of ~15.72MiB at 5.83MiB/s ETA 00:07", "00:07"] := by decide
    have c2 : FindStringSubmatch percentRE
        "[download]  49.7% of ~15.72MiB at 5.83MiB/s ETA 00:07" =
        ["download]  49.7%", "49.7"] := by decide
    have c3 : FindStringSubmatch filename
        "[download]  49.7% of ~15.72MiB at 5.83MiB/s ETA 00:07" = [] := by decide
    have hp : ParseFloat32 "49.7" = .ok ⟨0x4246CCCD⟩ := by decide
    simp [updateMetadata, c1, c2, c3, hp]

set_option maxRecDepth 100000 in
/-- C1, witness: the line of the claim as an instance of the general shape. -/
theorem updateMetadata_progress_line_witness :
    ∃ dl1, updateMetadata sampleJob (String.mk ("[download]".data ++ "  ".data ++ "49.7".data ++
          "% of ".data ++ "~15.72MiB".data ++ " at ".data ++ "5.83MiB/s".data ++ " ETA ".data ++
          ['0', '0', ':', '0', '7'])) = .ok dl1 ∧
      dl1.Percent = ⟨roundBits (digitsValue "49.7".data) (fractionDigits "49.7".data)⟩ ∧
      dl1.Eta = String.mk ['0', '0', ':', '0', '7'] ∧ dl1.State = "downloading" :=
  ((updateMetadata_progress_line sampleJob).1 "  ".data "49.7".data "~15.72MiB".data
    "5.83MiB/s".data '0' '0' '0' '7' (by decide) (by decide) (by decide) (by decide)
    (by decide) (by decide) (by decide) (by decide) (by decide) (by decide)).1 (by decide)

set_option maxRecDepth 100000 in
/-- C1, counterexample: the numeral 10^39 is made of digits only, and on the progress
line that carries it `updateMetadata` panics with a range error. -/
theorem updateMetadata_progress_line_counterexample :
    ¬ ∀ (dl : download) (sp P size rate : List Char) (d1 d2 d3 d4 : Char),
      (∀ c ∈ sp, c = ' ') →
      (∀ c ∈ P, digitOrDot c = true) → (P.filter digit).length ≠ 0 →
      (P.filter fun c => c == '.').length ≤ 1 →
      (∀ c ∈ size, c ≠ '\n') → (∀ c ∈ rate, c ≠ '\n') →
      digit d1 = true → digit d2 = true → digit d3 = true → digit d4 = true →
      ∃ dl1, updateMetadata dl (String.mk ("[download]".data ++ sp ++ P ++ "% of ".data ++ size ++
          " at ".data ++ rate ++ " ETA ".data ++ [d1, d2, ':', d3, d4])) = .ok dl1 ∧
        ParseFloat32 (String.mk P) = .ok dl1.Percent ∧
        dl1.Eta = String.mk [d1, d2, ':', d3, d4] ∧ dl1.State = "downloading" := by
  intro h
  obtain ⟨dl1, h1, -⟩ := h sampleJob " ".data "1000000000000000000000000000000000000000".data
    "1MiB".data "1MiB/s".data '0' '0' '0' '7' (by decide) (by decide) (by decide) (by decide)
    (by decide) (by decide) (by decide) (by decide) (by decide) (by decide)
  have e : updateMetadata sampleJob (String.mk ("[download]".data ++ " ".data ++
      "1000000000000000000000000000000000000000".data ++ "% of ".data ++ "1MiB".data ++
      " at ".data ++ "1MiB/s".data ++ " ETA ".data ++ ['0', '0', ':', '0', '7'])) =
      .error .errRange := by decide
  rw [e] at h1
  exact absurd h1 (by simp)

end Gropple
